import Mathlib

/-!
Verification development for the NetImpact configuration impact-analysis engine.

The Python sources are embedded shallowly:

* `src/src/diff/generic_diff_engine.py` — the generic tree diff engine
  (`GenericDiffEngine.compare_configs`, `_compare_config_section`,
  `_compare_lists`, `_get_list_item_key`, `get_change_summary`);
* `src/src/analysis/schema_analyzer/true_schema_analyzer.py` — the schema-driven
  dependency matcher (`find_schema_driven_dependencies`, `_schema_path_matches`,
  `_extract_object_identifier`);
* `src/src/cli/main.py` — the per-object impact aggregation and identifier
  resolution (`_analyze_per_object_impact`, `_extract_identifier_from_path`,
  `_resolve_dependency_target_identifiers_from_current_config`,
  `_interface_references_acl`, and their helpers).

Python dicts are modelled as insertion-ordered association lists
(`List (String × Value)`); a well-formedness predicate captures the fact that a
real Python dict never holds two entries with the same key.  Python `==` is
modelled by `pyEq` (dict comparison is key-based and order-insensitive, list
comparison is positional).  Scalars are strings, integers and `None`; the
configuration data this program loads from JSON contains no other scalar shape
that any claim depends on.  Places where the Python source would raise an
exception on shape-anomalous input (e.g. indexing a string like a dict) are
modelled as lookup failures; each such spot is marked with a comment.
-/

/-- Scalar configuration values (strings, integers, JSON null / Python None). -/
inductive Scalar where
  | str (s : String)
  | int (n : Int)
  | null
deriving DecidableEq

/-- A configuration value: a scalar, a Python dict (insertion-ordered
association list), or a Python list. -/
inductive Value where
  | scalar (s : Scalar)
  | dict (entries : List (String × Value))
  | list (items : List Value)

/-- Python `d[k]` / `d.get(k)` lookup on an association list: first entry wins
(a real Python dict has unique keys, so first = only). -/
def pyFind (k : String) : List (String × Value) → Option Value
  | [] => none
  | (k0, v) :: rest => if k0 == k then some v else pyFind k rest

mutual
/-- Size of a value (termination measure for the well-founded recursions that
mirror the Python functions below). -/
def valueSize : Value → Nat
  | .scalar _ => 1
  | .dict d => 1 + entriesSize d
  | .list l => 1 + itemsSize l
/-- Size of a dict entry list. -/
def entriesSize : List (String × Value) → Nat
  | [] => 1
  | (_, v) :: rest => 1 + valueSize v + entriesSize rest
/-- Size of a value list. -/
def itemsSize : List Value → Nat
  | [] => 1
  | v :: rest => 1 + valueSize v + itemsSize rest
end

theorem one_le_valueSize (v : Value) : 1 ≤ valueSize v := by
  cases v <;> simp [valueSize]

mutual
/-- Python `==` between two configuration values: scalars compare by value,
lists positionally (with a length check), dicts by key lookup (order
insensitive, with a length check); values of different shapes are unequal. -/
def pyEq (a b : Value) : Bool :=
  match a, b with
  | .scalar x, .scalar y => x == y
  | .dict d1, .dict d2 => (d1.length == d2.length) && pyEqEntries d1 d2
  | .list l1, .list l2 => (l1.length == l2.length) && pyEqZip l1 l2
  | _, _ => false
/-- Python dict equality helper: every entry of `d1` is found in `d2` with an
equal value. -/
def pyEqEntries (d1 d2 : List (String × Value)) : Bool :=
  match d1 with
  | [] => true
  | (k, v) :: rest =>
    (match pyFind k d2 with
     | some w => pyEq v w
     | none => false) && pyEqEntries rest d2
/-- Python list equality helper: positional comparison (the caller checks the
lengths). -/
def pyEqZip (l1 l2 : List Value) : Bool :=
  match l1, l2 with
  | [], _ => true
  | _, [] => true
  | a :: r1, b :: r2 => pyEq a b && pyEqZip r1 r2
end

/-- Keys of an association list. -/
def keysOf (d : List (String × Value)) : List String := d.map Prod.fst

/-- No string occurs twice in a list (key uniqueness of a real Python dict). -/
def nodupKeys : List String → Bool
  | [] => true
  | k :: ks => !ks.contains k && nodupKeys ks

mutual
/-- A value is valid when every dict inside it has pairwise-distinct keys —
true of every value a Python `json.load` can produce. -/
def validB : Value → Bool
  | .scalar _ => true
  | .dict d => nodupKeys (keysOf d) && validEntries d
  | .list l => validItems l
/-- Validity of every value of a dict entry list. -/
def validEntries : List (String × Value) → Bool
  | [] => true
  | (_, v) :: rest => validB v && validEntries rest
/-- Validity of every element of a value list. -/
def validItems : List Value → Bool
  | [] => true
  | v :: rest => validB v && validItems rest
end

/-- A key string is segment-safe when it contains neither the path separator
`/` nor the list-key bracket `[` — true of every YANG/JSON configuration key
this system processes, and required for rendered change paths to parse back
unambiguously. -/
def safeKey (k : String) : Bool := !k.data.contains '/' && !k.data.contains '['

mutual
/-- Every dict key anywhere inside the value is segment-safe. -/
def safeB : Value → Bool
  | .scalar _ => true
  | .dict d => safeEntries d
  | .list l => safeItems l
/-- Segment-safety of a dict entry list. -/
def safeEntries : List (String × Value) → Bool
  | [] => true
  | (k, v) :: rest => safeKey k && safeB v && safeEntries rest
/-- Segment-safety of a value list. -/
def safeItems : List Value → Bool
  | [] => true
  | v :: rest => safeB v && safeItems rest
end

mutual
/-- Python `repr` of a value (used by `str()` on dicts and lists inside
f-string descriptions).  String escaping inside `repr` of a string is
simplified to plain quoting; no claim depends on it. -/
def pyRepr : Value → String
  | .scalar (.str s) => "\x27" ++ s ++ "\x27"
  | .scalar (.int n) => toString n
  | .scalar .null => "None"
  | .dict d => "\x7b" ++ reprEntries d ++ "\x7d"
  | .list l => "[" ++ reprItems l ++ "]"
/-- Comma-separated `repr` of dict entries. -/
def reprEntries : List (String × Value) → String
  | [] => ""
  | [(k, v)] => "\x27" ++ k ++ "\x27: " ++ pyRepr v
  | (k, v) :: rest => "\x27" ++ k ++ "\x27: " ++ pyRepr v ++ ", " ++ reprEntries rest
/-- Comma-separated `repr` of list items. -/
def reprItems : List Value → String
  | [] => ""
  | [v] => pyRepr v
  | v :: rest => pyRepr v ++ ", " ++ reprItems rest
end

/-- Python `str()` of a value: a string renders as itself, everything else as
its `repr`. -/
def pyStr : Value → String
  | .scalar (.str s) => s
  | v => pyRepr v

/-- One configuration change record (Python dataclass `ConfigChange` in
`generic_diff_engine.py`). -/
structure ConfigChange where
  path : String
  change_type : String
  old_value : Option Value := none
  new_value : Option Value := none
  description : String := ""

/-- Python `not isinstance(item, (dict, list))`. -/
def isScalarB : Value → Bool
  | .scalar _ => true
  | _ => false

/-- Key-field candidates tried in priority order by
`GenericDiffEngine._get_list_item_key`. -/
def keyCandidates : List String := ["name", "id", "vlan-id", "sequence-id", "interface-id"]

/-- Embeds `GenericDiffEngine._get_list_item_key`: the first present key-field
candidate rendered with `str()`, else the positional index. -/
def get_list_item_key (item : Value) (index : Nat) : String :=
  match item with
  | .dict d =>
    match keyCandidates.findSome? (fun c => pyFind c d) with
    | some v => pyStr v
    | none => toString index
  | _ => toString index

/-- Python dict insertion `d[k] = v` on an association list: overwrite the
value at the (unique) occurrence of `k`, else append at the end. -/
def pyDictInsert : List (String × Value) → String → Value → List (String × Value)
  | [], k, v => [(k, v)]
  | (k0, v0) :: rest, k, v =>
    if k0 == k then (k0, v) :: rest else (k0, v0) :: pyDictInsert rest k v

/-- Left-to-right construction of
`{self._get_list_item_key(item, i): item for i, item in enumerate(lst)}`. -/
def keyedItemsFrom : Nat → List Value → List (String × Value) → List (String × Value)
  | _, [], acc => acc
  | i, item :: rest, acc =>
    keyedItemsFrom (i + 1) rest (pyDictInsert acc (get_list_item_key item i) item)

/-- The dict comprehension `{key(item, i): item for i, item in enumerate(lst)}`
used by `_compare_lists` for both sides. -/
def keyedItems (l : List Value) : List (String × Value) := keyedItemsFrom 0 l []

theorem entriesSize_pyDictInsert (acc : List (String × Value)) (k : String) (v : Value) :
    entriesSize (pyDictInsert acc k v) ≤ entriesSize acc + valueSize v + 1 := by
  induction acc with
  | nil => simp only [pyDictInsert, entriesSize]; omega
  | cons e rest ih =>
    obtain ⟨k0, v0⟩ := e
    simp only [pyDictInsert]
    by_cases h : (k0 == k) = true
    · simp [h, entriesSize]; omega
    · simp [h, entriesSize]; omega

theorem entriesSize_keyedItemsFrom (l : List Value) :
    ∀ (i : Nat) (acc : List (String × Value)),
      entriesSize (keyedItemsFrom i l acc) + 1 ≤ entriesSize acc + itemsSize l := by
  induction l with
  | nil => intro i acc; simp [keyedItemsFrom, itemsSize]
  | cons item rest ih =>
    intro i acc
    simp only [keyedItemsFrom, itemsSize]
    calc entriesSize (keyedItemsFrom (i + 1) rest (pyDictInsert acc (get_list_item_key item i) item)) + 1
        ≤ entriesSize (pyDictInsert acc (get_list_item_key item i) item) + itemsSize rest := ih _ _
      _ ≤ (entriesSize acc + valueSize item + 1) + itemsSize rest := by
          have := entriesSize_pyDictInsert acc (get_list_item_key item i) item; omega
      _ ≤ entriesSize acc + (1 + valueSize item + itemsSize rest) := by omega

theorem entriesSize_keyedItems (l : List Value) :
    entriesSize (keyedItems l) ≤ itemsSize l := by
  have := entriesSize_keyedItemsFrom l 0 []
  simp only [keyedItems]
  have h1 : entriesSize ([] : List (String × Value)) = 1 := rfl
  omega

mutual
/-- Embeds `GenericDiffEngine._compare_config_section`: both mappings → key-wise
comparison of the proposed entries; both lists → list comparison; otherwise a
single `modified` record when the two values are Python-unequal. -/
def compare_section (current_section proposed_section : Value) (path : String) : List ConfigChange :=
  match proposed_section, current_section with
  | Value.dict pd, Value.dict cd => compare_entries cd pd path
  | Value.list pl, Value.list cl => compare_lists cl pl path
  | _, _ =>
    if pyEq current_section proposed_section then []
    else [{ path := path, change_type := "modified",
            old_value := some current_section, new_value := some proposed_section,
            description := "Modified " ++ path ++ ": " ++ pyStr current_section ++ " → " ++ pyStr proposed_section }]
termination_by 3 * valueSize proposed_section
decreasing_by
  all_goals simp [valueSize] <;> omega

/-- One iteration of the `for key, proposed_value in proposed_section.items()`
loop body of `_compare_config_section`: absent key → `added`; present with
unequal value → recurse when the proposed value is a dict or list, else
`modified`. -/
def compare_entry_value (cd : List (String × Value)) (key : String) (proposed_value : Value) (path : String) : List ConfigChange :=
  match pyFind key cd with
  | none => [{ path := path ++ "/" ++ key, change_type := "added",
               new_value := some proposed_value,
               description := "Added configuration: " ++ (path ++ "/" ++ key) }]
  | some current_value =>
    if pyEq current_value proposed_value then []
    else match h : proposed_value with
      | Value.dict _ => compare_section current_value proposed_value (path ++ "/" ++ key)
      | Value.list _ => compare_section current_value proposed_value (path ++ "/" ++ key)
      | _ => [{ path := path ++ "/" ++ key, change_type := "modified",
                old_value := some current_value, new_value := some proposed_value,
                description := "Modified " ++ (path ++ "/" ++ key) ++ ": " ++ pyStr current_value ++ " → " ++ pyStr proposed_value }]
termination_by 3 * valueSize proposed_value + 1
decreasing_by
  all_goals (try simp only [h]) <;> omega

/-- The `for key, proposed_value in proposed_section.items()` loop of
`_compare_config_section`. -/
def compare_entries (cd pd : List (String × Value)) (path : String) : List ConfigChange :=
  match pd with
  | [] => []
  | (key, proposed_value) :: rest =>
    compare_entry_value cd key proposed_value path ++ compare_entries cd rest path
termination_by 3 * entriesSize pd + 2
decreasing_by
  all_goals simp [entriesSize] <;> (try have hb := one_le_valueSize proposed_value) <;> omega

/-- Embeds `GenericDiffEngine._compare_lists`: a list whose proposed elements
are all scalars is compared wholesale (one `modified` record when unequal);
otherwise elements are paired by key and compared via `compare_keyed`. -/
def compare_lists (current_list proposed_list : List Value) (path : String) : List ConfigChange :=
  if proposed_list.all isScalarB then
    if pyEq (Value.list current_list) (Value.list proposed_list) then []
    else [{ path := path, change_type := "modified",
            old_value := some (Value.list current_list),
            new_value := some (Value.list proposed_list),
            description := "List modified at " ++ path }]
  else compare_keyed (keyedItems current_list) (keyedItems proposed_list) path
termination_by 3 * itemsSize proposed_list + 2
decreasing_by
  simp
  have hb := entriesSize_keyedItems proposed_list
  omega

/-- The `for key, proposed_item in proposed_items.items()` loop of
`_compare_lists`: unmatched key → `added` at `path[key]`; matched with unequal
content → recurse into the pair. -/
def compare_keyed (current_items proposed_items : List (String × Value)) (path : String) : List ConfigChange :=
  match proposed_items with
  | [] => []
  | (key, proposed_item) :: rest =>
    (match pyFind key current_items with
     | none => [{ path := path ++ "[" ++ key ++ "]", change_type := "added",
                  new_value := some proposed_item,
                  description := "Added list item: " ++ (path ++ "[" ++ key ++ "]") }]
     | some cur_item =>
       if pyEq cur_item proposed_item then []
       else compare_section cur_item proposed_item (path ++ "[" ++ key ++ "]"))
    ++ compare_keyed current_items rest path
termination_by 3 * entriesSize proposed_items + 1
decreasing_by
  all_goals simp [entriesSize] <;> (try have hb := one_le_valueSize proposed_item) <;> omega
end

/-- A configuration tree: the top-level Python dict of a loaded configuration. -/
abbrev ConfigDict := List (String × Value)

/-- Embeds `GenericDiffEngine.compare_configs` (partial mode): iterate the
top-level keys of the proposed config, skipping the metadata section
`device`; a section absent from the current config yields one `added` record,
a present one is compared recursively. -/
def compare_configs (current_config proposed_config : ConfigDict) : List ConfigChange :=
  match proposed_config with
  | [] => []
  | (top_level_key, pv) :: rest =>
    (if top_level_key == "device" then []
     else match pyFind top_level_key current_config with
       | some cv => compare_section cv pv top_level_key
       | none => [{ path := top_level_key, change_type := "added", new_value := some pv,
                    description := "New configuration section: " ++ top_level_key }])
    ++ compare_configs current_config rest

/-- Split a string at every occurrence of a separator character (Python
`s.split(sep)` for a one-character separator). -/
def splitCharList (sep : Char) : List Char → List (List Char)
  | [] => [[]]
  | c :: rest =>
    match splitCharList sep rest with
    | parts :: more => if c = sep then [] :: parts :: more else (c :: parts) :: more
    | [] => [[c]]

/-- Python `s.split(sep)` for a one-character separator. -/
def pySplit (sep : Char) (s : String) : List String :=
  (splitCharList sep s.data).map (fun l => String.mk l)

/-- Summary dictionary produced by `GenericDiffEngine.get_change_summary`. -/
structure ChangeSummary where
  total_changes : Nat
  added : Nat
  modified : Nat
  deleted : Nat
  changes_by_section : List (String × List String)

/-- Append a description under a section key, preserving Python dict insertion
order (helper for the `changes_by_section` grouping loop). -/
def pyGroupAdd : List (String × List String) → String → String → List (String × List String)
  | [], k, d => [(k, [d])]
  | (k0, l) :: rest, k, d =>
    if k0 == k then (k0, l ++ [d]) :: rest else (k0, l) :: pyGroupAdd rest k d

/-- Embeds `GenericDiffEngine.get_change_summary`: per-type counts plus
descriptions grouped by the first `/`-separated component of each path. -/
def get_change_summary (changes : List ConfigChange) : ChangeSummary :=
  { total_changes := changes.length,
    added := (changes.filter (fun c => c.change_type == "added")).length,
    modified := (changes.filter (fun c => c.change_type == "modified")).length,
    deleted := (changes.filter (fun c => c.change_type == "deleted")).length,
    changes_by_section :=
      changes.foldl (fun acc c => pyGroupAdd acc ((pySplit '/' c.path).headD "") c.description) [] }

theorem mem_of_pyFind {k : String} {d : List (String × Value)} {v : Value}
    (h : pyFind k d = some v) : (k, v) ∈ d := by
  induction d with
  | nil => simp [pyFind] at h
  | cons e rest ih =>
    obtain ⟨k0, v0⟩ := e
    by_cases hk : k0 = k
    · subst hk
      simp [pyFind] at h
      simp [h]
    · simp [pyFind, hk] at h
      exact List.mem_cons_of_mem _ (ih h)

theorem pyFind_eq_of_mem {k : String} {d : List (String × Value)} {v : Value}
    (hnd : nodupKeys (keysOf d) = true) (h : (k, v) ∈ d) : pyFind k d = some v := by
  induction d with
  | nil => simp at h
  | cons e rest ih =>
    obtain ⟨k0, v0⟩ := e
    simp only [keysOf, List.map_cons, nodupKeys, Bool.and_eq_true, Bool.not_eq_true] at hnd
    rcases List.mem_cons.mp h with h1 | h1
    · rw [Prod.mk.injEq] at h1
      obtain ⟨rfl, rfl⟩ := h1
      simp [pyFind]
    · have hmem : k ∈ keysOf rest := by
        simpa [keysOf] using List.mem_map_of_mem Prod.fst h1
      have hne : k0 ≠ k := by
        intro he
        subst he
        have hc := hnd.1
        simp [keysOf] at hc hmem
        obtain ⟨x, hx⟩ := hmem
        exact hc x hx
      simp only [pyFind, beq_iff_eq, if_neg hne]
      exact ih (by simpa [keysOf] using hnd.2) h1

theorem pyFind_isSome_iff {k : String} {d : List (String × Value)} :
    (pyFind k d).isSome = true ↔ k ∈ keysOf d := by
  induction d with
  | nil => simp [pyFind, keysOf]
  | cons e rest ih =>
    obtain ⟨k0, v0⟩ := e
    by_cases hk : k0 = k
    · subst hk; simp [pyFind, keysOf]
    · simp [pyFind, hk, keysOf, ih, beq_iff_eq]
      tauto

theorem validEntries_find {d : List (String × Value)} (hv : validEntries d = true)
    {k : String} {v : Value} (h : (k, v) ∈ d) : validB v = true := by
  induction d with
  | nil => simp at h
  | cons e rest ih =>
    obtain ⟨k0, v0⟩ := e
    simp only [validEntries, Bool.and_eq_true] at hv
    rcases List.mem_cons.mp h with h1 | h1
    · rw [Prod.mk.injEq] at h1
      obtain ⟨rfl, rfl⟩ := h1
      exact hv.1
    · exact ih hv.2 h1

mutual
theorem pyEq_refl (v : Value) (h : validB v = true) : pyEq v v = true := by
  match v with
  | .scalar s => simp [pyEq]
  | .dict d =>
    simp only [validB, Bool.and_eq_true] at h
    simp only [pyEq, Bool.and_eq_true, beq_self_eq_true, true_and]
    exact pyEqEntries_refl d d h.1 h.2 (fun e he => he)
  | .list l =>
    simp only [validB] at h
    simp only [pyEq, Bool.and_eq_true, beq_self_eq_true, true_and]
    exact pyEqZip_refl l h

theorem pyEqEntries_refl (pd d : List (String × Value))
    (hnd : nodupKeys (keysOf d) = true) (hv : validEntries pd = true)
    (hsub : ∀ e ∈ pd, e ∈ d) : pyEqEntries pd d = true := by
  match pd with
  | [] => simp [pyEqEntries]
  | (k, v) :: rest =>
    simp only [validEntries, Bool.and_eq_true] at hv
    have hf : pyFind k d = some v :=
      pyFind_eq_of_mem hnd (hsub _ (List.mem_cons_self _ _))
    simp only [pyEqEntries, hf, Bool.and_eq_true]
    exact ⟨pyEq_refl v hv.1, pyEqEntries_refl rest d hnd hv.2
      (fun e he => hsub _ (List.mem_cons_of_mem _ he))⟩

theorem pyEqZip_refl (l : List Value) (h : validItems l = true) : pyEqZip l l = true := by
  match l with
  | [] => simp [pyEqZip]
  | v :: rest =>
    simp only [validItems, Bool.and_eq_true] at h
    simp only [pyEqZip, Bool.and_eq_true]
    exact ⟨pyEq_refl v h.1, pyEqZip_refl rest h.2⟩
end

theorem nodupKeys_iff {ks : List String} : nodupKeys ks = true ↔ ks.Nodup := by
  induction ks with
  | nil => simp [nodupKeys]
  | cons k rest ih => simp [nodupKeys, ih, List.elem_iff]

theorem keysOf_pyDictInsert (acc : List (String × Value)) (k : String) (v : Value) :
    keysOf (pyDictInsert acc k v) = if k ∈ keysOf acc then keysOf acc else keysOf acc ++ [k] := by
  induction acc with
  | nil => simp [pyDictInsert, keysOf]
  | cons e rest ih =>
    obtain ⟨k0, v0⟩ := e
    by_cases hk : k0 = k
    · subst hk; simp [pyDictInsert, keysOf]
    · simp only [pyDictInsert, beq_iff_eq, if_neg hk, keysOf, List.map_cons]
      have ihk := ih
      simp only [keysOf] at ihk
      rw [ihk]
      by_cases hmem : k ∈ List.map Prod.fst rest
      · simp [keysOf, hmem, Ne.symm hk]
      · simp [keysOf, hmem, Ne.symm hk]

theorem nodup_keysOf_pyDictInsert {acc : List (String × Value)} (k : String) (v : Value)
    (h : (keysOf acc).Nodup) : (keysOf (pyDictInsert acc k v)).Nodup := by
  rw [keysOf_pyDictInsert]
  split
  · exact h
  · next hk => simpa [List.nodup_append] using ⟨h, fun he => hk he⟩

theorem nodup_keysOf_keyedItemsFrom (l : List Value) :
    ∀ (i : Nat) (acc : List (String × Value)), (keysOf acc).Nodup →
      (keysOf (keyedItemsFrom i l acc)).Nodup := by
  induction l with
  | nil => intro i acc h; simpa [keyedItemsFrom] using h
  | cons item rest ih =>
    intro i acc h
    exact ih _ _ (nodup_keysOf_pyDictInsert _ _ h)

theorem nodup_keysOf_keyedItems (l : List Value) : (keysOf (keyedItems l)).Nodup := by
  exact nodup_keysOf_keyedItemsFrom l 0 [] (by simp [keysOf])

theorem snd_mem_pyDictInsert {acc : List (String × Value)} {k : String} {v : Value} {e : String × Value}
    (h : e ∈ pyDictInsert acc k v) : e.2 = v ∨ e ∈ acc := by
  induction acc with
  | nil => simp [pyDictInsert] at h; simp [h]
  | cons e0 rest ih =>
    obtain ⟨k0, v0⟩ := e0
    by_cases hk : k0 = k
    · subst hk
      simp [pyDictInsert] at h
      rcases h with h | h
      · simp [h]
      · right; exact List.mem_cons_of_mem _ h
    · simp [pyDictInsert, hk] at h
      rcases h with h | h
      · right; simp [h]
      · rcases ih h with h1 | h1
        · left; exact h1
        · right; exact List.mem_cons_of_mem _ h1

theorem snd_mem_keyedItemsFrom (l : List Value) :
    ∀ (i : Nat) (acc : List (String × Value)) (e : String × Value),
      e ∈ keyedItemsFrom i l acc → e.2 ∈ l ∨ e ∈ acc := by
  induction l with
  | nil => intro i acc e h; simp [keyedItemsFrom] at h; right; exact h
  | cons item rest ih =>
    intro i acc e h
    simp only [keyedItemsFrom] at h
    rcases ih _ _ _ h with h1 | h1
    · left; exact List.mem_cons_of_mem _ h1
    · rcases snd_mem_pyDictInsert h1 with h2 | h2
      · left; simp [h2]
      · right; exact h2

theorem snd_mem_keyedItems {l : List Value} {e : String × Value}
    (h : e ∈ keyedItems l) : e.2 ∈ l := by
  rcases snd_mem_keyedItemsFrom l 0 [] e h with h1 | h1
  · exact h1
  · simp at h1

theorem validItems_mem {l : List Value} (hv : validItems l = true) {v : Value}
    (h : v ∈ l) : validB v = true := by
  induction l with
  | nil => simp at h
  | cons v0 rest ih =>
    simp only [validItems, Bool.and_eq_true] at hv
    rcases List.mem_cons.mp h with h1 | h1
    · subst h1; exact hv.1
    · exact ih hv.2 h1

theorem compare_entries_self (d : List (String × Value)) (path : String)
    (hnd : nodupKeys (keysOf d) = true) :
    ∀ pd : List (String × Value), (∀ e ∈ pd, e ∈ d) → (∀ e ∈ pd, validB e.2 = true) →
      compare_entries d pd path = [] := by
  intro pd
  induction pd with
  | nil => intro _ _; simp [compare_entries]
  | cons e rest ih =>
    intro hsub hv
    obtain ⟨k, v⟩ := e
    have hf : pyFind k d = some v := pyFind_eq_of_mem hnd (hsub _ (List.mem_cons_self _ _))
    have hr : pyEq v v = true := pyEq_refl v (hv _ (List.mem_cons_self _ _))
    simp only [compare_entries, compare_entry_value, hf, hr, if_true, List.nil_append]
    exact ih (fun e he => hsub _ (List.mem_cons_of_mem _ he))
      (fun e he => hv _ (List.mem_cons_of_mem _ he))

theorem compare_keyed_self (ci : List (String × Value)) (path : String)
    (hnd : nodupKeys (keysOf ci) = true) :
    ∀ pi : List (String × Value), (∀ e ∈ pi, e ∈ ci) → (∀ e ∈ pi, validB e.2 = true) →
      compare_keyed ci pi path = [] := by
  intro pi
  induction pi with
  | nil => intro _ _; simp [compare_keyed]
  | cons e rest ih =>
    intro hsub hv
    obtain ⟨k, v⟩ := e
    have hf : pyFind k ci = some v := pyFind_eq_of_mem hnd (hsub _ (List.mem_cons_self _ _))
    have hr : pyEq v v = true := pyEq_refl v (hv _ (List.mem_cons_self _ _))
    simp only [compare_keyed, hf, hr, if_true, List.nil_append]
    exact ih (fun e he => hsub _ (List.mem_cons_of_mem _ he))
      (fun e he => hv _ (List.mem_cons_of_mem _ he))

theorem compare_section_self (v : Value) (path : String) (h : validB v = true) :
    compare_section v v path = [] := by
  match v with
  | .scalar s => simp [compare_section, pyEq_refl _ h]
  | .dict d =>
    simp only [validB, Bool.and_eq_true] at h
    simp only [compare_section]
    exact compare_entries_self d path h.1 d (fun e he => he)
      (fun e he => validEntries_find h.2 (by simpa using he))
  | .list l =>
    simp only [validB] at h
    simp only [compare_section, compare_lists]
    split
    · simp [pyEq_refl (Value.list l) (by simpa [validB] using h)]
    · exact compare_keyed_self (keyedItems l) path
        (nodupKeys_iff.mpr (nodup_keysOf_keyedItems l)) (keyedItems l)
        (fun e he => he)
        (fun e he => validItems_mem h (snd_mem_keyedItems he))

theorem compare_configs_self_aux (t : ConfigDict) (hnd : nodupKeys (keysOf t) = true) :
    ∀ pc : ConfigDict, (∀ e ∈ pc, e ∈ t) → (∀ e ∈ pc, validB e.2 = true) →
      compare_configs t pc = [] := by
  intro pc
  induction pc with
  | nil => intro _ _; simp [compare_configs]
  | cons e rest ih =>
    intro hsub hv
    obtain ⟨k, v⟩ := e
    simp only [compare_configs]
    by_cases hdev : k = "device"
    · simp only [hdev, beq_self_eq_true, if_true, List.nil_append]
      exact ih (fun e he => hsub _ (List.mem_cons_of_mem _ he))
        (fun e he => hv _ (List.mem_cons_of_mem _ he))
    · have hf : pyFind k t = some v := pyFind_eq_of_mem hnd (hsub _ (List.mem_cons_self _ _))
      have hs : compare_section v v k = [] :=
        compare_section_self v k (hv _ (List.mem_cons_self _ _))
      simp only [beq_iff_eq, if_neg hdev, hf, hs, List.nil_append]
      exact ih (fun e he => hsub _ (List.mem_cons_of_mem _ he))
        (fun e he => hv _ (List.mem_cons_of_mem _ he))

/-- C1: diffing any valid configuration tree against itself yields no change
records.  Validity means what is true of every tree a Python `json.load`
produces: every dict (at any depth) has pairwise-distinct keys. -/
theorem c1_diff_idempotent (t : ConfigDict) (h : validB (Value.dict t) = true) :
    compare_configs t t = [] := by
  simp only [validB, Bool.and_eq_true] at h
  exact compare_configs_self_aux t h.1 t (fun e he => he)
    (fun e he => validEntries_find h.2 (by simpa using he))

/-- Witness for C1 at a concrete two-section configuration containing a nested
dict and a keyed list. -/
theorem c1_diff_idempotent_witness :
    validB (Value.dict [("openconfig-interfaces:interfaces",
        Value.dict [("interface", Value.list [Value.dict [("name", Value.scalar (.str "eth0")),
          ("config", Value.dict [("description", Value.scalar (.str "up"))])]])]),
      ("vlans", Value.list [Value.dict [("vlan-id", Value.scalar (.int 10))]])]) = true ∧
    compare_configs [("openconfig-interfaces:interfaces",
        Value.dict [("interface", Value.list [Value.dict [("name", Value.scalar (.str "eth0")),
          ("config", Value.dict [("description", Value.scalar (.str "up"))])]])]),
      ("vlans", Value.list [Value.dict [("vlan-id", Value.scalar (.int 10))]])]
      [("openconfig-interfaces:interfaces",
        Value.dict [("interface", Value.list [Value.dict [("name", Value.scalar (.str "eth0")),
          ("config", Value.dict [("description", Value.scalar (.str "up"))])]])]),
      ("vlans", Value.list [Value.dict [("vlan-id", Value.scalar (.int 10))]])] = [] := by
  refine ⟨by decide, c1_diff_idempotent _ (by decide)⟩

mutual
theorem noDeleted_section (current_section proposed_section : Value) (path : String) :
    ∀ r ∈ compare_section current_section proposed_section path,
      r.change_type = "added" ∨ r.change_type = "modified" := by
  intro r hr
  rw [compare_section.eq_def] at hr
  split at hr
  · exact noDeleted_entries _ _ _ r hr
  · exact noDeleted_lists _ _ _ r hr
  · split at hr
    · simp at hr
    · simp at hr
      subst hr
      right; rfl
termination_by 3 * valueSize proposed_section
decreasing_by
  all_goals subst_vars <;> simp only [valueSize, entriesSize, itemsSize] <;> omega

theorem noDeleted_entry_value (cd : List (String × Value)) (key : String)
    (proposed_value : Value) (path : String) :
    ∀ r ∈ compare_entry_value cd key proposed_value path,
      r.change_type = "added" ∨ r.change_type = "modified" := by
  intro r hr
  rw [compare_entry_value.eq_def] at hr
  split at hr
  · simp at hr
    subst hr
    left; rfl
  · split at hr
    · simp at hr
    · split at hr
      · exact noDeleted_section _ _ _ r hr
      · exact noDeleted_section _ _ _ r hr
      · simp at hr
        subst hr
        right; rfl
termination_by 3 * valueSize proposed_value + 1
decreasing_by
  all_goals subst_vars <;> simp only [valueSize, entriesSize, itemsSize] <;> omega

theorem noDeleted_entries (cd pd : List (String × Value)) (path : String) :
    ∀ r ∈ compare_entries cd pd path,
      r.change_type = "added" ∨ r.change_type = "modified" := by
  intro r hr
  rw [compare_entries.eq_def] at hr
  split at hr
  · simp at hr
  · rename_i key proposed_value rest
    rw [List.mem_append] at hr
    rcases hr with hr | hr
    · exact noDeleted_entry_value _ _ _ _ r hr
    · exact noDeleted_entries _ _ _ r hr
termination_by 3 * entriesSize pd + 2
decreasing_by
  all_goals subst_vars <;>
    (try have hb := one_le_valueSize proposed_value) <;>
    simp only [valueSize, entriesSize, itemsSize] <;> omega

theorem noDeleted_lists (current_list proposed_list : List Value) (path : String) :
    ∀ r ∈ compare_lists current_list proposed_list path,
      r.change_type = "added" ∨ r.change_type = "modified" := by
  intro r hr
  rw [compare_lists.eq_def] at hr
  split at hr
  · split at hr
    · simp at hr
    · simp at hr
      subst hr
      right; rfl
  · exact noDeleted_keyed _ _ _ r hr
termination_by 3 * itemsSize proposed_list + 2
decreasing_by
  subst_vars
  have hb := entriesSize_keyedItems proposed_list
  omega

theorem noDeleted_keyed (current_items proposed_items : List (String × Value)) (path : String) :
    ∀ r ∈ compare_keyed current_items proposed_items path,
      r.change_type = "added" ∨ r.change_type = "modified" := by
  intro r hr
  rw [compare_keyed.eq_def] at hr
  split at hr
  · simp at hr
  · rename_i key proposed_item rest
    rw [List.mem_append] at hr
    rcases hr with hr | hr
    · split at hr
      · simp at hr
        subst hr
        left; rfl
      · split at hr
        · simp at hr
        · exact noDeleted_section _ _ _ r hr
    · exact noDeleted_keyed _ _ _ r hr
termination_by 3 * entriesSize proposed_items + 1
decreasing_by
  all_goals subst_vars <;>
    (try have hb := one_le_valueSize proposed_item) <;>
    simp only [valueSize, entriesSize, itemsSize] <;> omega
end

theorem noDeleted_configs (current_config proposed_config : ConfigDict) :
    ∀ r ∈ compare_configs current_config proposed_config,
      r.change_type = "added" ∨ r.change_type = "modified" := by
  intro r hr
  induction proposed_config with
  | nil => simp [compare_configs] at hr
  | cons e rest ih =>
    obtain ⟨k, v⟩ := e
    simp only [compare_configs] at hr
    rw [List.mem_append] at hr
    rcases hr with hr | hr
    · split at hr
      · simp at hr
      · split at hr
        · exact noDeleted_section _ _ _ r hr
        · simp at hr
          subst hr
          left; rfl
    · exact ih hr

/-- C10: for every pair of input trees the diff engine never emits a
ChangeRecord with change_type `deleted` — every record is `added` or
`modified` — and consequently the `deleted` count of every change summary it
produces is zero. -/
theorem c10_no_deleted_records (current_config proposed_config : ConfigDict) :
    (∀ r ∈ compare_configs current_config proposed_config, r.change_type ≠ "deleted") ∧
    (get_change_summary (compare_configs current_config proposed_config)).deleted = 0 := by
  constructor
  · intro r hr
    rcases noDeleted_configs current_config proposed_config r hr with h | h <;> simp [h]
  · simp only [get_change_summary]
    rw [List.length_eq_zero, List.filter_eq_nil]
    intro r hr
    rcases noDeleted_configs current_config proposed_config r hr with h | h <;> simp [h]

/-- A suffix that a rendered change path may append to a prefix path: nothing,
or a segment separator `/` followed by more, or a list-key bracket `[`. -/
def SepSuffix (s : List Char) : Prop :=
  s = [] ∨ (∃ t, s = '/' :: t) ∨ (∃ t, s = '[' :: t)

/-- The rendered path of a change record extends the path prefix it was
produced under, either exactly or through `/`-separated or `[`-bracketed
further segments. -/
def ExtendsPath (rp p : String) : Prop :=
  ∃ s, rp.data = p.data ++ s ∧ SepSuffix s

theorem extendsPath_refl (p : String) : ExtendsPath p p :=
  ⟨[], by simp, Or.inl rfl⟩

theorem data_append (a b : String) : (a ++ b).data = a.data ++ b.data :=
  String.data_append a b

theorem extendsPath_slash {q p k : String} (h : ExtendsPath q (p ++ "/" ++ k)) :
    ExtendsPath q p := by
  obtain ⟨s, hs, _⟩ := h
  refine ⟨'/' :: (k.data ++ s), ?_, Or.inr (Or.inl ⟨_, rfl⟩)⟩
  simpa [data_append] using hs

theorem extendsPath_bracket {q p k : String} (h : ExtendsPath q (p ++ "[" ++ k ++ "]")) :
    ExtendsPath q p := by
  obtain ⟨s, hs, _⟩ := h
  refine ⟨'[' :: (k.data ++ ']' :: s), ?_, Or.inr (Or.inr ⟨_, rfl⟩)⟩
  simpa [data_append] using hs

/-- Segment-safe strings followed by separator-headed (or empty) suffixes parse
unambiguously: equal concatenations force equal segments. -/
theorem sep_token_eq : ∀ (k1 k2 : List Char) (s1 s2 : List Char),
    (∀ c ∈ k1, c ≠ '/' ∧ c ≠ '[') → (∀ c ∈ k2, c ≠ '/' ∧ c ≠ '[') →
    SepSuffix s1 → SepSuffix s2 → k1 ++ s1 = k2 ++ s2 → k1 = k2 := by
  intro k1
  induction k1 with
  | nil =>
    intro k2 s1 s2 _ h2 g1 _ he
    cases k2 with
    | nil => rfl
    | cons c t =>
      exfalso
      have hc : c ∈ c :: t := List.mem_cons_self _ _
      rcases g1 with rfl | ⟨t1, rfl⟩ | ⟨t1, rfl⟩
      · simp at he
      · simp at he
        obtain ⟨rfl, -⟩ := he
        exact (h2 _ hc).1 rfl
      · simp at he
        obtain ⟨rfl, -⟩ := he
        exact (h2 _ hc).2 rfl
  | cons c t ih =>
    intro k2 s1 s2 h1 h2 g1 g2 he
    cases k2 with
    | nil =>
      exfalso
      have hc : c ∈ c :: t := List.mem_cons_self _ _
      rcases g2 with rfl | ⟨t2, rfl⟩ | ⟨t2, rfl⟩
      · simp at he
      · simp at he
        obtain ⟨rfl, -⟩ := he
        exact (h1 _ hc).1 rfl
      · simp at he
        obtain ⟨rfl, -⟩ := he
        exact (h1 _ hc).2 rfl
    | cons c2 t2 =>
      simp only [List.cons_append, List.cons.injEq] at he
      obtain ⟨rfl, he⟩ := he
      have := ih t2 s1 s2 (fun x hx => h1 _ (List.mem_cons_of_mem _ hx))
        (fun x hx => h2 _ (List.mem_cons_of_mem _ hx)) g1 g2 he
      rw [this]

theorem safeKey_chars {k : String} (h : safeKey k = true) :
    ∀ c ∈ k.data, c ≠ '/' ∧ c ≠ '[' := by
  intro c hc
  simp only [safeKey, Bool.and_eq_true, Bool.not_eq_true] at h
  constructor
  · intro heq; subst heq
    have h1 := h.1
    rw [List.contains_eq_any_beq] at h1
    simp at h1
    exact h1 _ hc rfl
  · intro heq; subst heq
    have h1 := h.2
    rw [List.contains_eq_any_beq] at h1
    simp at h1
    exact h1 _ hc rfl

/-- Number of `added` records at exactly the path `P`. -/
def countAdded (cs : List ConfigChange) (P : String) : Nat :=
  (cs.filter (fun r => r.change_type == "added" && r.path == P)).length

theorem countAdded_append (cs1 cs2 : List ConfigChange) (P : String) :
    countAdded (cs1 ++ cs2) P = countAdded cs1 P + countAdded cs2 P := by
  simp [countAdded, List.filter_append]

theorem countAdded_zero {cs : List ConfigChange} {P : String}
    (h : ∀ r ∈ cs, r.path ≠ P) : countAdded cs P = 0 := by
  simp only [countAdded, List.length_eq_zero, List.filter_eq_nil]
  intro r hr
  simp [h r hr]

mutual
theorem pathShape_section (current_section proposed_section : Value) (path : String) :
    ∀ r ∈ compare_section current_section proposed_section path, ExtendsPath r.path path := by
  intro r hr
  rw [compare_section.eq_def] at hr
  split at hr
  · obtain ⟨e, -, he⟩ := pathShape_entries _ _ _ r hr
    exact extendsPath_slash he
  · rcases pathShape_lists _ _ _ r hr with h | ⟨e, -, he⟩
    · exact h ▸ extendsPath_refl _
    · exact extendsPath_bracket he
  · split at hr
    · simp at hr
    · simp at hr
      subst hr
      exact extendsPath_refl _
termination_by 3 * valueSize proposed_section
decreasing_by
  all_goals subst_vars <;> simp only [valueSize, entriesSize, itemsSize] <;> omega

theorem pathShape_entry_value (cd : List (String × Value)) (key : String)
    (proposed_value : Value) (path : String) :
    ∀ r ∈ compare_entry_value cd key proposed_value path,
      ExtendsPath r.path (path ++ "/" ++ key) := by
  intro r hr
  rw [compare_entry_value.eq_def] at hr
  split at hr
  · simp at hr
    subst hr
    exact extendsPath_refl _
  · split at hr
    · simp at hr
    · split at hr
      · exact pathShape_section _ _ _ r hr
      · exact pathShape_section _ _ _ r hr
      · simp at hr
        subst hr
        exact extendsPath_refl _
termination_by 3 * valueSize proposed_value + 1
decreasing_by
  all_goals subst_vars <;> simp only [valueSize, entriesSize, itemsSize] <;> omega

theorem pathShape_entries (cd pd : List (String × Value)) (path : String) :
    ∀ r ∈ compare_entries cd pd path,
      ∃ e ∈ pd, ExtendsPath r.path (path ++ "/" ++ e.1) := by
  intro r hr
  rw [compare_entries.eq_def] at hr
  split at hr
  · simp at hr
  · rename_i key proposed_value rest
    rw [List.mem_append] at hr
    rcases hr with hr | hr
    · exact ⟨(key, proposed_value), List.mem_cons_self _ _,
        pathShape_entry_value _ _ _ _ r hr⟩
    · obtain ⟨e, he, hx⟩ := pathShape_entries _ _ _ r hr
      exact ⟨e, List.mem_cons_of_mem _ he, hx⟩
termination_by 3 * entriesSize pd + 2
decreasing_by
  all_goals subst_vars <;>
    (try have hb := one_le_valueSize proposed_value) <;>
    simp only [valueSize, entriesSize, itemsSize] <;> omega

theorem pathShape_lists (current_list proposed_list : List Value) (path : String) :
    ∀ r ∈ compare_lists current_list proposed_list path,
      r.path = path ∨ ∃ e ∈ keyedItems proposed_list,
        ExtendsPath r.path (path ++ "[" ++ e.1 ++ "]") := by
  intro r hr
  rw [compare_lists.eq_def] at hr
  split at hr
  · split at hr
    · simp at hr
    · simp at hr
      subst hr
      left; rfl
  · obtain ⟨e, he, hx⟩ := pathShape_keyed _ _ _ r hr
    exact Or.inr ⟨e, he, hx⟩
termination_by 3 * itemsSize proposed_list + 2
decreasing_by
  subst_vars
  have hb := entriesSize_keyedItems proposed_list
  omega

theorem pathShape_keyed (current_items proposed_items : List (String × Value)) (path : String) :
    ∀ r ∈ compare_keyed current_items proposed_items path,
      ∃ e ∈ proposed_items, ExtendsPath r.path (path ++ "[" ++ e.1 ++ "]") := by
  intro r hr
  rw [compare_keyed.eq_def] at hr
  split at hr
  · simp at hr
  · rename_i key proposed_item rest
    rw [List.mem_append] at hr
    rcases hr with hr | hr
    · refine ⟨(key, proposed_item), List.mem_cons_self _ _, ?_⟩
      split at hr
      · simp at hr
        subst hr
        exact extendsPath_refl _
      · split at hr
        · simp at hr
        · exact pathShape_section _ _ _ r hr
    · obtain ⟨e, he, hx⟩ := pathShape_keyed _ _ _ r hr
      exact ⟨e, List.mem_cons_of_mem _ he, hx⟩
termination_by 3 * entriesSize proposed_items + 1
decreasing_by
  all_goals subst_vars <;>
    (try have hb := one_le_valueSize proposed_item) <;>
    simp only [valueSize, entriesSize, itemsSize] <;> omega
end

theorem pyEqEntries_find {d1 d2 : List (String × Value)} (h : pyEqEntries d1 d2 = true) :
    ∀ {k : String} {v : Value}, (k, v) ∈ d1 →
      ∃ w, pyFind k d2 = some w ∧ pyEq v w = true := by
  induction d1 with
  | nil => intro k v hm; simp at hm
  | cons e rest ih =>
    intro k v hm
    obtain ⟨k0, v0⟩ := e
    rw [pyEqEntries.eq_def] at h
    simp only [Bool.and_eq_true] at h
    rcases List.mem_cons.mp hm with h1 | h1
    · rw [Prod.mk.injEq] at h1
      obtain ⟨rfl, rfl⟩ := h1
      rcases hw : pyFind k d2 with - | w
      · rw [hw] at h; simp at h
      · rw [hw] at h
        exact ⟨w, rfl, h.1⟩
    · exact ih h.2 h1

theorem pyEq_dict_keys_sub {d1 d2 : List (String × Value)}
    (h : pyEq (Value.dict d1) (Value.dict d2) = true) :
    ∀ k ∈ keysOf d1, k ∈ keysOf d2 := by
  intro k hk
  rw [pyEq.eq_def] at h
  simp only [Bool.and_eq_true] at h
  simp only [keysOf, List.mem_map] at hk
  obtain ⟨⟨k0, v0⟩, hm, he⟩ := hk
  subst he
  obtain ⟨w, hw, -⟩ := pyEqEntries_find h.2 hm
  rw [← pyFind_isSome_iff]
  simp [hw]

theorem pyEq_dict_keys_sup {d1 d2 : List (String × Value)}
    (h : pyEq (Value.dict d1) (Value.dict d2) = true)
    (h1 : (keysOf d1).Nodup) (h2 : (keysOf d2).Nodup) :
    ∀ k ∈ keysOf d2, k ∈ keysOf d1 := by
  have hlen : d1.length = d2.length := by
    rw [pyEq.eq_def] at h
    simp only [Bool.and_eq_true, beq_iff_eq] at h
    exact h.1
  have hklen : (keysOf d1).length = (keysOf d2).length := by
    simp [keysOf, hlen]
  have hsub : (keysOf d1).toFinset ⊆ (keysOf d2).toFinset := by
    intro k hk
    rw [List.mem_toFinset] at hk ⊢
    exact pyEq_dict_keys_sub h k hk
  have hcard : (keysOf d2).toFinset.card ≤ (keysOf d1).toFinset.card := by
    rw [List.toFinset_card_of_nodup h1, List.toFinset_card_of_nodup h2]
    omega
  have heqf : (keysOf d1).toFinset = (keysOf d2).toFinset :=
    Finset.eq_of_subset_of_card_le hsub hcard
  intro k hk
  rw [← List.mem_toFinset, ← heqf, List.mem_toFinset] at hk
  exact hk

/-- Both trees carry nested mappings along a chain of ancestor keys, ending at
a final mapping. -/
def dictChain : Value → List String → List (String × Value) → Prop
  | v, [], d => v = Value.dict d
  | v, a :: rest, d =>
    ∃ m v2, v = Value.dict m ∧ pyFind a m = some v2 ∧ dictChain v2 rest d

theorem validB_dictChain {v : Value} {anc : List String} {d : List (String × Value)}
    (hv : validB v = true) (hc : dictChain v anc d) : validB (Value.dict d) = true := by
  induction anc generalizing v with
  | nil => rw [hc] at hv; exact hv
  | cons a rest ih =>
    obtain ⟨m, v2, rfl, hf, hc2⟩ := hc
    have hv2 : validB v2 = true := by
      simp only [validB, Bool.and_eq_true] at hv
      exact validEntries_find hv.2 (mem_of_pyFind hf)
    exact ih hv2 hc2

theorem safeEntries_key {d : List (String × Value)} (hs : safeEntries d = true) :
    ∀ e ∈ d, safeKey e.1 = true ∧ safeB e.2 = true := by
  induction d with
  | nil => intro e he; simp at he
  | cons e0 rest ih =>
    intro e he
    obtain ⟨k0, v0⟩ := e0
    simp only [safeEntries, Bool.and_eq_true] at hs
    rcases List.mem_cons.mp he with h1 | h1
    · subst h1; exact ⟨hs.1.1, hs.1.2⟩
    · exact ih hs.2 e h1

theorem safeB_dictChain {v : Value} {anc : List String} {d : List (String × Value)}
    (hs : safeB v = true) (hc : dictChain v anc d) : safeEntries d = true := by
  induction anc generalizing v with
  | nil => rw [hc] at hs; simpa [safeB] using hs
  | cons a rest ih =>
    obtain ⟨m, v2, rfl, hf, hc2⟩ := hc
    simp only [safeB] at hs
    have hv2 : safeB v2 = true := (safeEntries_key hs _ (mem_of_pyFind hf)).2
    exact ih hv2 hc2

/-- Along a chain ending in a key present on the proposed side but absent on
the current side, the two values are Python-unequal at every level — in
particular at the top. -/
theorem chain_neq {anc : List String} {cv pv : Value}
    {cdF pdF : List (String × Value)} {k : String}
    (hvc : validB cv = true) (hvp : validB pv = true)
    (hcc : dictChain cv anc cdF) (hcp : dictChain pv anc pdF)
    (habs : pyFind k cdF = none) (hpres : (pyFind k pdF).isSome = true) :
    pyEq cv pv = false := by
  induction anc generalizing cv pv with
  | nil =>
    rw [hcc] at hvc ⊢
    rw [hcp] at hvp ⊢
    by_contra hne
    rw [Bool.not_eq_false] at hne
    have hk : k ∈ keysOf pdF := pyFind_isSome_iff.mp hpres
    have hnd1 : (keysOf cdF).Nodup := by
      simp only [validB, Bool.and_eq_true] at hvc
      exact nodupKeys_iff.mp hvc.1
    have hnd2 : (keysOf pdF).Nodup := by
      simp only [validB, Bool.and_eq_true] at hvp
      exact nodupKeys_iff.mp hvp.1
    have : k ∈ keysOf cdF := pyEq_dict_keys_sup hne hnd1 hnd2 k hk
    rw [← pyFind_isSome_iff] at this
    simp [habs] at this
  | cons a rest ih =>
    obtain ⟨mc, cv2, rfl, hfc, hcc2⟩ := hcc
    obtain ⟨mp, pv2, rfl, hfp, hcp2⟩ := hcp
    by_contra hne
    rw [Bool.not_eq_false] at hne
    rw [pyEq.eq_def] at hne
    simp only [Bool.and_eq_true] at hne
    obtain ⟨w, hw, hvw⟩ := pyEqEntries_find hne.2 (mem_of_pyFind hfc)
    rw [hfp] at hw
    obtain rfl : pv2 = w := by simpa using hw
    have hvc2 : validB cv2 = true := by
      simp only [validB, Bool.and_eq_true] at hvc
      exact validEntries_find hvc.2 (mem_of_pyFind hfc)
    have hvp2 : validB pv2 = true := by
      simp only [validB, Bool.and_eq_true] at hvp
      exact validEntries_find hvp.2 (mem_of_pyFind hfp)
    have := ih hvc2 hvp2 hcc2 hcp2
    simp [this] at hvw

/-- Rendered path of a key below a chain of ancestor keys. -/
def renderChain : List String → String → String
  | [], k => k
  | a :: rest, k => a ++ "/" ++ renderChain rest k

theorem countAdded_block_ne {path k1 a P : String} {tail : List Char}
    (hs1 : safeKey k1 = true) (hs2 : safeKey a = true)
    (htail : SepSuffix tail) (hne : k1 ≠ a)
    (hP : P.data = (path ++ "/" ++ a).data ++ tail)
    {cs : List ConfigChange} (hcs : ∀ r ∈ cs, ExtendsPath r.path (path ++ "/" ++ k1)) :
    countAdded cs P = 0 := by
  apply countAdded_zero
  intro r hr heq
  obtain ⟨s, hsdata, hsep⟩ := hcs r hr
  rw [heq, hP] at hsdata
  have hflat : path.data ++ ("/".data ++ (a.data ++ tail)) =
      path.data ++ ("/".data ++ (k1.data ++ s)) := by
    simpa [data_append, List.append_assoc] using hsdata
  have h1 := List.append_cancel_left hflat
  have h2 := List.append_cancel_left h1
  have h3 : k1.data = a.data :=
    sep_token_eq k1.data a.data s tail (safeKey_chars hs1) (safeKey_chars hs2)
      hsep htail h2.symm
  exact hne (String.ext h3)

theorem string_append_assoc (a b c : String) : a ++ b ++ c = a ++ (b ++ c) :=
  String.ext (by simp [data_append])

theorem recPath_ne {path k1 a P : String} {tail : List Char}
    (hs1 : safeKey k1 = true) (hs2 : safeKey a = true)
    (htail : SepSuffix tail) (hne : k1 ≠ a)
    (hP : P.data = (path ++ "/" ++ a).data ++ tail)
    {q : String} (hq : ExtendsPath q (path ++ "/" ++ k1)) : q ≠ P := by
  intro heq
  obtain ⟨s, hsdata, hsep⟩ := hq
  rw [heq, hP] at hsdata
  have hflat : path.data ++ ("/".data ++ (a.data ++ tail)) =
      path.data ++ ("/".data ++ (k1.data ++ s)) := by
    simpa [data_append, List.append_assoc] using hsdata
  have h1 := List.append_cancel_left hflat
  have h2 := List.append_cancel_left h1
  exact hne (String.ext
    (sep_token_eq k1.data a.data s tail (safeKey_chars hs1) (safeKey_chars hs2)
      hsep htail h2.symm))

theorem countAdded_entries_focus (cd : List (String × Value)) (path a P : String)
    (pv2 : Value) (tail : List Char)
    (hs2 : safeKey a = true) (htail : SepSuffix tail)
    (hP : P.data = (path ++ "/" ++ a).data ++ tail) :
    ∀ pd : List (String × Value), (keysOf pd).Nodup →
      (∀ e ∈ pd, safeKey e.1 = true) → (a, pv2) ∈ pd →
      countAdded (compare_entries cd pd path) P =
        countAdded (compare_entry_value cd a pv2 path) P := by
  intro pd
  induction pd with
  | nil => intro _ _ hm; simp at hm
  | cons e rest ih =>
    intro hnd hsafe hm
    obtain ⟨k1, pv1⟩ := e
    have hstep : compare_entries cd ((k1, pv1) :: rest) path =
        compare_entry_value cd k1 pv1 path ++ compare_entries cd rest path := by
      rw [compare_entries.eq_def]
    rw [hstep, countAdded_append]
    simp only [keysOf, List.map_cons, List.nodup_cons] at hnd
    by_cases hk : k1 = a
    · subst hk
      have hpv : pv1 = pv2 := by
        rcases List.mem_cons.mp hm with h1 | h1
        · exact (Prod.mk.injEq .. ▸ h1).2.symm
        · exact absurd (by simpa [keysOf] using List.mem_map_of_mem Prod.fst h1) hnd.1
      subst hpv
      have hrest : countAdded (compare_entries cd rest path) P = 0 := by
        apply countAdded_zero
        intro r hr
        obtain ⟨e2, he2, hx⟩ := pathShape_entries cd rest path r hr
        have hne2 : e2.1 ≠ k1 := by
          intro heq
          exact hnd.1 (by simpa [keysOf, ← heq] using List.mem_map_of_mem Prod.fst he2)
        exact recPath_ne (hsafe _ (List.mem_cons_of_mem _ he2)) hs2 htail hne2 hP hx
      omega
    · have hblock : countAdded (compare_entry_value cd k1 pv1 path) P = 0 := by
        apply countAdded_zero
        intro r hr
        exact recPath_ne (hsafe _ (List.mem_cons_self _ _)) hs2 htail hk hP
          (pathShape_entry_value cd k1 pv1 path r hr)
      have hmem : (a, pv2) ∈ rest := by
        rcases List.mem_cons.mp hm with h1 | h1
        · exact absurd (Prod.mk.injEq .. ▸ h1).1.symm hk
        · exact h1
      rw [hblock, ih hnd.2 (fun e he => hsafe _ (List.mem_cons_of_mem _ he)) hmem]
      omega

theorem countAdded_entry_value_absent (cd : List (String × Value)) (k : String)
    (pv : Value) (path : String) (habs : pyFind k cd = none) :
    countAdded (compare_entry_value cd k pv path) (path ++ "/" ++ k) = 1 := by
  rw [compare_entry_value.eq_def, habs]
  simp [countAdded]

theorem slash_data : ("/" : String).data = ['/'] := rfl

theorem countAdded_section_chain :
    ∀ (anc : List String) (cv pv : Value) (path k : String)
      (cdF pdF : List (String × Value)),
      validB cv = true → validB pv = true → safeB pv = true →
      dictChain cv anc cdF → dictChain pv anc pdF →
      pyFind k cdF = none → (pyFind k pdF).isSome = true →
      countAdded (compare_section cv pv path) (path ++ "/" ++ renderChain anc k) = 1 := by
  intro anc
  induction anc with
  | nil =>
    intro cv pv path k cdF pdF hvc hvp hsp hcc hcp habs hpres
    rw [show dictChain cv [] cdF = (cv = Value.dict cdF) from rfl] at hcc
    rw [show dictChain pv [] pdF = (pv = Value.dict pdF) from rfl] at hcp
    subst hcc; subst hcp
    have hstep : compare_section (Value.dict cdF) (Value.dict pdF) path =
        compare_entries cdF pdF path := by rw [compare_section.eq_def]
    rw [hstep]
    obtain ⟨pv2, hfp⟩ := Option.isSome_iff_exists.mp hpres
    have hm : (k, pv2) ∈ pdF := mem_of_pyFind hfp
    have hnd : (keysOf pdF).Nodup := by
      simp only [validB, Bool.and_eq_true] at hvp
      exact nodupKeys_iff.mp hvp.1
    have hsafe : ∀ e ∈ pdF, safeKey e.1 = true := by
      intro e he
      exact (safeEntries_key (by simpa [safeB] using hsp) e he).1
    have hsk : safeKey k = true := hsafe _ hm
    rw [show renderChain [] k = k from rfl]
    rw [countAdded_entries_focus cdF path k (path ++ "/" ++ k) pv2 []
      hsk (Or.inl rfl) (by simp) pdF hnd hsafe hm]
    exact countAdded_entry_value_absent cdF k pv2 path habs
  | cons a rest ih =>
    intro cv pv path k cdF pdF hvc hvp hsp hcc hcp habs hpres
    obtain ⟨mc, cv2, rfl, hfc, hcc2⟩ := hcc
    obtain ⟨mp, pv2, rfl, hfp, hcp2⟩ := hcp
    have hstep : compare_section (Value.dict mc) (Value.dict mp) path =
        compare_entries mc mp path := by rw [compare_section.eq_def]
    rw [hstep]
    have hnd : (keysOf mp).Nodup := by
      simp only [validB, Bool.and_eq_true] at hvp
      exact nodupKeys_iff.mp hvp.1
    have hsafe : ∀ e ∈ mp, safeKey e.1 = true := by
      intro e he
      exact (safeEntries_key (by simpa [safeB] using hsp) e he).1
    have hm : (a, pv2) ∈ mp := mem_of_pyFind hfp
    have hsa : safeKey a = true := hsafe _ hm
    have hP : (path ++ "/" ++ renderChain (a :: rest) k).data =
        (path ++ "/" ++ a).data ++ ('/' :: (renderChain rest k).data) := by
      simp [renderChain, data_append, slash_data, List.append_assoc]
    rw [show renderChain (a :: rest) k = a ++ "/" ++ renderChain rest k from rfl] at hP ⊢
    rw [countAdded_entries_focus mc path a
      (path ++ "/" ++ (a ++ "/" ++ renderChain rest k)) pv2
      ('/' :: (renderChain rest k).data) hsa (Or.inr (Or.inl ⟨_, rfl⟩)) hP mp hnd hsafe hm]
    have hvc2 : validB cv2 = true := by
      simp only [validB, Bool.and_eq_true] at hvc
      exact validEntries_find hvc.2 (mem_of_pyFind hfc)
    have hvp2 : validB pv2 = true := by
      simp only [validB, Bool.and_eq_true] at hvp
      exact validEntries_find hvp.2 hm
    have hsp2 : safeB pv2 = true :=
      (safeEntries_key (by simpa [safeB] using hsp) _ hm).2
    have hne : pyEq cv2 pv2 = false :=
      chain_neq hvc2 hvp2 hcc2 hcp2 habs hpres
    have hshape : ∃ m2, pv2 = Value.dict m2 := by
      cases rest with
      | nil => exact ⟨pdF, hcp2⟩
      | cons b brest => obtain ⟨m2, v3, h2, -, -⟩ := hcp2; exact ⟨m2, h2⟩
    obtain ⟨m2, rfl⟩ := hshape
    have hev : compare_entry_value mc a (Value.dict m2) path =
        compare_section cv2 (Value.dict m2) (path ++ "/" ++ a) := by
      rw [compare_entry_value.eq_def, hfc]
      simp [hne]
    rw [hev]
    have hPassoc : path ++ "/" ++ (a ++ "/" ++ renderChain rest k) =
        (path ++ "/" ++ a) ++ "/" ++ renderChain rest k := by
      apply String.ext
      simp [data_append, List.append_assoc]
    rw [hPassoc]
    exact ih cv2 (Value.dict m2) (path ++ "/" ++ a) k cdF pdF hvc2 hvp2 hsp2 hcc2 hcp2 habs hpres

theorem rootPath_ne {k1 a P : String} {tail : List Char}
    (hs1 : safeKey k1 = true) (hs2 : safeKey a = true)
    (htail : SepSuffix tail) (hne : k1 ≠ a)
    (hP : P.data = a.data ++ tail)
    {q : String} (hq : ExtendsPath q k1) : q ≠ P := by
  intro heq
  obtain ⟨s, hsdata, hsep⟩ := hq
  rw [heq, hP] at hsdata
  exact hne (String.ext
    (sep_token_eq k1.data a.data s tail (safeKey_chars hs1) (safeKey_chars hs2)
      hsep htail hsdata.symm))

/-- The block of records that `compare_configs` appends for one top-level
proposed section. -/
def sectionBlock (current_config : ConfigDict) (top_level_key : String) (pv : Value) : List ConfigChange :=
  if top_level_key == "device" then []
  else match pyFind top_level_key current_config with
    | some cv => compare_section cv pv top_level_key
    | none => [{ path := top_level_key, change_type := "added", new_value := some pv,
                 description := "New configuration section: " ++ top_level_key }]

theorem compare_configs_cons (current_config : ConfigDict) (k : String) (v : Value)
    (rest : ConfigDict) :
    compare_configs current_config ((k, v) :: rest) =
      sectionBlock current_config k v ++ compare_configs current_config rest := rfl

theorem sectionBlock_extends (current_config : ConfigDict) (k : String) (pv : Value) :
    ∀ r ∈ sectionBlock current_config k pv, ExtendsPath r.path k := by
  intro r hr
  rw [sectionBlock.eq_def] at hr
  split at hr
  · simp at hr
  · split at hr
    · exact pathShape_section _ _ _ r hr
    · simp at hr
      subst hr
      exact extendsPath_refl _

theorem configs_extends (current_config : ConfigDict) :
    ∀ (pc : ConfigDict) (r : ConfigChange), r ∈ compare_configs current_config pc →
      ∃ e ∈ pc, ExtendsPath r.path e.1 := by
  intro pc
  induction pc with
  | nil => intro r hr; simp [compare_configs] at hr
  | cons e rest ih =>
    intro r hr
    obtain ⟨k1, pv1⟩ := e
    rw [compare_configs_cons, List.mem_append] at hr
    rcases hr with hr | hr
    · exact ⟨(k1, pv1), List.mem_cons_self _ _, sectionBlock_extends _ _ _ r hr⟩
    · obtain ⟨e2, he2, hx⟩ := ih r hr
      exact ⟨e2, List.mem_cons_of_mem _ he2, hx⟩

theorem countAdded_configs_focus (current_config : ConfigDict) (a P : String)
    (pv2 : Value) (tail : List Char)
    (hs2 : safeKey a = true) (htail : SepSuffix tail)
    (hP : P.data = a.data ++ tail) :
    ∀ pc : ConfigDict, (keysOf pc).Nodup →
      (∀ e ∈ pc, safeKey e.1 = true) → (a, pv2) ∈ pc →
      countAdded (compare_configs current_config pc) P =
        countAdded (sectionBlock current_config a pv2) P := by
  intro pc
  induction pc with
  | nil => intro _ _ hm; simp at hm
  | cons e rest ih =>
    intro hnd hsafe hm
    obtain ⟨k1, pv1⟩ := e
    rw [compare_configs_cons, countAdded_append]
    simp only [keysOf, List.map_cons, List.nodup_cons] at hnd
    by_cases hk : k1 = a
    · subst hk
      have hpv : pv1 = pv2 := by
        rcases List.mem_cons.mp hm with h1 | h1
        · exact (Prod.mk.injEq .. ▸ h1).2.symm
        · exact absurd (by simpa [keysOf] using List.mem_map_of_mem Prod.fst h1) hnd.1
      subst hpv
      have hrest : countAdded (compare_configs current_config rest) P = 0 := by
        apply countAdded_zero
        intro r hr
        obtain ⟨e2, he2, hx⟩ := configs_extends current_config rest r hr
        have hne2 : e2.1 ≠ k1 := by
          intro heq
          exact hnd.1 (by simpa [keysOf, ← heq] using List.mem_map_of_mem Prod.fst he2)
        exact rootPath_ne (hsafe _ (List.mem_cons_of_mem _ he2)) hs2 htail hne2 hP hx
      omega
    · have hblock : countAdded (sectionBlock current_config k1 pv1) P = 0 := by
        apply countAdded_zero
        intro r hr
        exact rootPath_ne (hsafe _ (List.mem_cons_self _ _)) hs2 htail hk hP
          (sectionBlock_extends current_config k1 pv1 r hr)
      have hmem : (a, pv2) ∈ rest := by
        rcases List.mem_cons.mp hm with h1 | h1
        · exact absurd (Prod.mk.injEq .. ▸ h1).1.symm hk
        · exact h1
      rw [hblock, ih hnd.2 (fun e he => hsafe _ (List.mem_cons_of_mem _ he)) hmem]
      omega

/-- C2 (amended): for every pair of valid, segment-safe trees and every key
`k` reachable in the proposed tree through a chain of ancestor mappings that
exist as mappings in both trees (the chain not rooted at the metadata section
`device`), if `k` is present in the proposed mapping at that position and
absent from the current mapping there, the diff emits exactly one `added`
record whose path is the `/`-joined ancestor chain followed by `k` — no
duplicate records at that path and no omission. -/
theorem c2_added_exactly_once (current_config proposed_config : ConfigDict)
    (anc : List String) (k : String) (cdF pdF : List (String × Value))
    (hvc : validB (Value.dict current_config) = true)
    (hvp : validB (Value.dict proposed_config) = true)
    (hsp : safeB (Value.dict proposed_config) = true)
    (hdev : anc.headD k ≠ "device")
    (hcc : dictChain (Value.dict current_config) anc cdF)
    (hcp : dictChain (Value.dict proposed_config) anc pdF)
    (habs : pyFind k cdF = none)
    (hpres : (pyFind k pdF).isSome = true) :
    countAdded (compare_configs current_config proposed_config) (renderChain anc k) = 1 := by
  have hndp : (keysOf proposed_config).Nodup := by
    simp only [validB, Bool.and_eq_true] at hvp
    exact nodupKeys_iff.mp hvp.1
  have hsafep : ∀ e ∈ proposed_config, safeKey e.1 = true := by
    intro e he
    exact (safeEntries_key (by simpa [safeB] using hsp) e he).1
  cases anc with
  | nil =>
    have hcd : cdF = current_config := by
      rw [show dictChain (Value.dict current_config) [] cdF =
        (Value.dict current_config = Value.dict cdF) from rfl] at hcc
      cases hcc; rfl
    have hpd : pdF = proposed_config := by
      rw [show dictChain (Value.dict proposed_config) [] pdF =
        (Value.dict proposed_config = Value.dict pdF) from rfl] at hcp
      cases hcp; rfl
    rw [hcd] at habs
    rw [hpd] at hpres
    obtain ⟨pv2, hfp⟩ := Option.isSome_iff_exists.mp hpres
    have hm : (k, pv2) ∈ proposed_config := mem_of_pyFind hfp
    have hsk : safeKey k = true := hsafep _ hm
    rw [show renderChain [] k = k from rfl]
    rw [countAdded_configs_focus current_config k k pv2 [] hsk (Or.inl rfl) (by simp)
      proposed_config hndp hsafep hm]
    have hdevk : (k == "device") = false := by
      simp only [List.headD] at hdev
      simp [hdev]
    rw [sectionBlock.eq_def]
    simp only [hdevk, Bool.false_eq_true, if_false, habs]
    simp [countAdded]
  | cons a rest =>
    obtain ⟨mc, cv2, hmc, hfc, hcc2⟩ := hcc
    obtain ⟨mp, pv2, hmp, hfp, hcp2⟩ := hcp
    have hmceq : mc = current_config := by cases hmc; rfl
    have hmpeq : mp = proposed_config := by cases hmp; rfl
    rw [hmceq] at hfc
    rw [hmpeq] at hfp
    have hm : (a, pv2) ∈ proposed_config := mem_of_pyFind hfp
    have hsa : safeKey a = true := hsafep _ hm
    have hP : (renderChain (a :: rest) k).data =
        a.data ++ ('/' :: (renderChain rest k).data) := by
      simp [renderChain, data_append, slash_data]
    rw [countAdded_configs_focus current_config a (renderChain (a :: rest) k) pv2
      ('/' :: (renderChain rest k).data) hsa (Or.inr (Or.inl ⟨_, rfl⟩)) hP
      proposed_config hndp hsafep hm]
    have hdeva : (a == "device") = false := by
      simp only [List.headD] at hdev
      simp [hdev]
    rw [sectionBlock.eq_def]
    simp only [hdeva, Bool.false_eq_true, if_false, hfc]
    have hvc2 : validB cv2 = true := by
      simp only [validB, Bool.and_eq_true] at hvc
      exact validEntries_find hvc.2 (mem_of_pyFind hfc)
    have hvp2 : validB pv2 = true := by
      simp only [validB, Bool.and_eq_true] at hvp
      exact validEntries_find hvp.2 hm
    have hsp2 : safeB pv2 = true :=
      (safeEntries_key (by simpa [safeB] using hsp) _ hm).2
    have := countAdded_section_chain rest cv2 pv2 a k cdF pdF hvc2 hvp2 hsp2 hcc2 hcp2 habs hpres
    rw [show renderChain (a :: rest) k = a ++ "/" ++ renderChain rest k from rfl]
    exact this

/-- Witness for the amended C2 at a concrete input: section `s` exists in both
trees as a mapping, key `n` exists only in the proposed one, and exactly one
`added` record appears at path `s/n`. -/
theorem c2_added_exactly_once_witness :
    validB (Value.dict [("s", Value.dict [])]) = true ∧
    validB (Value.dict [("s", Value.dict [("n", Value.scalar (Scalar.int 1))])]) = true ∧
    safeB (Value.dict [("s", Value.dict [("n", Value.scalar (Scalar.int 1))])]) = true ∧
    (["s"].headD "n" ≠ "device") ∧
    dictChain (Value.dict [("s", Value.dict [])]) ["s"] [] ∧
    dictChain (Value.dict [("s", Value.dict [("n", Value.scalar (Scalar.int 1))])]) ["s"]
      [("n", Value.scalar (Scalar.int 1))] ∧
    pyFind "n" [] = none ∧
    (pyFind "n" [("n", Value.scalar (Scalar.int 1))]).isSome = true ∧
    countAdded (compare_configs [("s", Value.dict [])]
      [("s", Value.dict [("n", Value.scalar (Scalar.int 1))])]) (renderChain ["s"] "n") = 1 := by
  refine ⟨by decide, by decide, by decide, by decide,
    ⟨[("s", Value.dict [])], Value.dict [], rfl, rfl, rfl⟩,
    ⟨[("s", Value.dict [("n", Value.scalar (Scalar.int 1))])],
      Value.dict [("n", Value.scalar (Scalar.int 1))], rfl, rfl, rfl⟩,
    rfl, rfl, ?_⟩
  exact c2_added_exactly_once _ _ ["s"] "n" [] [("n", Value.scalar (Scalar.int 1))]
    (by decide) (by decide) (by decide) (by decide)
    ⟨[("s", Value.dict [])], Value.dict [], rfl, rfl, rfl⟩
    ⟨[("s", Value.dict [("n", Value.scalar (Scalar.int 1))])],
      Value.dict [("n", Value.scalar (Scalar.int 1))], rfl, rfl, rfl⟩
    rfl rfl

/-- Counterexample to C2 as stated: in `current = {"a": 5}` versus
`proposed = {"a": {"b": 1}}` the key `b` is present in the proposed tree under
the ancestor `a` and absent from the current tree, yet the diff emits zero
`added` records at path `a/b` — it degrades to a single `modified` record at
`a` because the current value at `a` is not a mapping. -/
theorem c2_counterexample :
    dictChain (Value.dict [("a", Value.dict [("b", Value.scalar (Scalar.int 1))])]) ["a"]
      [("b", Value.scalar (Scalar.int 1))] ∧
    (pyFind "b" [("b", Value.scalar (Scalar.int 1))]).isSome = true ∧
    pyFind "a" [("a", Value.scalar (Scalar.int 5))] = some (Value.scalar (Scalar.int 5)) ∧
    countAdded (compare_configs [("a", Value.scalar (Scalar.int 5))]
      [("a", Value.dict [("b", Value.scalar (Scalar.int 1))])]) "a/b" = 0 ∧
    compare_configs [("a", Value.scalar (Scalar.int 5))]
      [("a", Value.dict [("b", Value.scalar (Scalar.int 1))])] =
      [{ path := "a", change_type := "modified",
         old_value := some (Value.scalar (Scalar.int 5)),
         new_value := some (Value.dict [("b", Value.scalar (Scalar.int 1))]),
         description := "Modified a: 5 → \x7b\x27b\x27: 1\x7d" }] := by
  refine ⟨⟨[("a", Value.dict [("b", Value.scalar (Scalar.int 1))])],
    Value.dict [("b", Value.scalar (Scalar.int 1))], rfl, rfl, rfl⟩, rfl, rfl, ?_, ?_⟩
  · simp [countAdded, compare_configs, sectionBlock, compare_section, pyFind, pyEq]
  · simp [compare_configs, sectionBlock, compare_section, pyFind, pyEq, pyStr, pyRepr, reprEntries]
    rfl

/-- The first `/`-separated component of a path, as the change summary computes
it (`change.path.split('/')[0]`) — a bracketed list-element segment such as
`a[x]` stays intact. -/
def topSegment (s : String) : String := (pySplit '/' s).headD ""

/-- The base name of a path's first segment: everything before the first `/`
or `[`. -/
def rootSeg (s : String) : String :=
  String.mk (s.data.takeWhile (fun c => !(c == '/') && !(c == '[')))

theorem rootSeg_of_extends {q k : String} (hs : safeKey k = true)
    (hq : ExtendsPath q k) : rootSeg q = k := by
  obtain ⟨s, hdata, hsep⟩ := hq
  have hall : ∀ c ∈ k.data, (!(c == '/') && !(c == '[')) = true := by
    intro c hc
    obtain ⟨h1, h2⟩ := safeKey_chars hs c hc
    simp [h1, h2]
  apply String.ext
  rw [rootSeg, hdata]
  show (k.data ++ s).takeWhile _ = k.data
  rw [List.takeWhile_append_of_pos hall]
  rcases hsep with rfl | ⟨t, rfl⟩ | ⟨t, rfl⟩ <;> simp [List.takeWhile]

theorem sectionBlock_nonmeta {current_config : ConfigDict} {k : String} {pv : Value}
    {r : ConfigChange} (hr : r ∈ sectionBlock current_config k pv) : k ≠ "device" := by
  intro heq
  rw [sectionBlock.eq_def] at hr
  subst heq
  simp at hr

theorem configs_extends_nonmeta (current_config : ConfigDict) :
    ∀ (pc : ConfigDict) (r : ConfigChange), r ∈ compare_configs current_config pc →
      ∃ e ∈ pc, e.1 ≠ "device" ∧ ExtendsPath r.path e.1 := by
  intro pc
  induction pc with
  | nil => intro r hr; simp [compare_configs] at hr
  | cons e rest ih =>
    intro r hr
    obtain ⟨k1, pv1⟩ := e
    rw [compare_configs_cons, List.mem_append] at hr
    rcases hr with hr | hr
    · exact ⟨(k1, pv1), List.mem_cons_self _ _, sectionBlock_nonmeta hr,
        sectionBlock_extends _ _ _ r hr⟩
    · obtain ⟨e2, he2, hm, hx⟩ := ih r hr
      exact ⟨e2, List.mem_cons_of_mem _ he2, hm, hx⟩

/-- C4 (amended): when the proposed tree's top-level keys are segment-safe,
every record the diff emits has a first path segment whose base name (the
segment with any `[key]` suffix stripped) is a top-level key of the proposed
tree and is never the metadata key `device`; consequently sections present
only in the current tree yield no records and the `device` section is never
diffed or reported. -/
theorem c4_partial_mode_scope (current_config proposed_config : ConfigDict)
    (hsafe : ∀ e ∈ proposed_config, safeKey e.1 = true) :
    ∀ r ∈ compare_configs current_config proposed_config,
      rootSeg r.path ∈ keysOf proposed_config ∧ rootSeg r.path ≠ "device" := by
  intro r hr
  obtain ⟨e, he, hm, hx⟩ := configs_extends_nonmeta current_config proposed_config r hr
  have hroot : rootSeg r.path = e.1 := rootSeg_of_extends (hsafe e he) hx
  rw [hroot]
  exact ⟨by simpa [keysOf] using List.mem_map_of_mem Prod.fst he, hm⟩

/-- Witness for the amended C4: a change inside a keyed list element of
section `a` renders as `a[x]/v`; its root base name `a` is a proposed key and
is not `device`. -/
theorem c4_partial_mode_scope_witness :
    (∀ e ∈ [("a", Value.list [Value.dict [("name", Value.scalar (Scalar.str "x")),
        ("v", Value.scalar (Scalar.int 2))]])], safeKey e.1 = true) ∧
    (∀ r ∈ compare_configs
        [("a", Value.list [Value.dict [("name", Value.scalar (Scalar.str "x")),
          ("v", Value.scalar (Scalar.int 1))]])]
        [("a", Value.list [Value.dict [("name", Value.scalar (Scalar.str "x")),
          ("v", Value.scalar (Scalar.int 2))]])],
      rootSeg r.path ∈ keysOf [("a", Value.list [Value.dict [("name", Value.scalar (Scalar.str "x")),
        ("v", Value.scalar (Scalar.int 2))]])] ∧ rootSeg r.path ≠ "device") := by
  refine ⟨by decide, c4_partial_mode_scope _ _ (by decide)⟩

/-- Counterexample to C4 as stated: with a list-valued top-level section the
record path `a[x]/v` has first `/`-separated segment `a[x]`, which is not a
key of the proposed tree — the claim holds only for the segment's base name. -/
theorem c4_counterexample :
    compare_configs
      [("a", Value.list [Value.dict [("name", Value.scalar (Scalar.str "x")),
        ("v", Value.scalar (Scalar.int 1))]])]
      [("a", Value.list [Value.dict [("name", Value.scalar (Scalar.str "x")),
        ("v", Value.scalar (Scalar.int 2))]])] =
      [{ path := "a[x]/v", change_type := "modified",
         old_value := some (Value.scalar (Scalar.int 1)),
         new_value := some (Value.scalar (Scalar.int 2)),
         description := "Modified a[x]/v: 1 → 2" }] ∧
    topSegment "a[x]/v" = "a[x]" ∧
    keysOf [("a", Value.list [Value.dict [("name", Value.scalar (Scalar.str "x")),
      ("v", Value.scalar (Scalar.int 2))]])] = ["a"] ∧
    ¬ ("a[x]" ∈ ["a"]) := by
  refine ⟨?_, by decide, by decide, by decide⟩
  simp [compare_configs, sectionBlock, compare_section, compare_lists, compare_keyed,
    compare_entries, compare_entry_value, keyedItems, keyedItemsFrom, pyDictInsert,
    get_list_item_key, keyCandidates, pyFind, pyEq, pyEqEntries, pyEqZip, isScalarB,
    pyStr, pyRepr]
  rfl

/-- A list element carries one of the key-field candidates (so its pairing key
is independent of its position). -/
def hasKeyFieldB (v : Value) : Bool :=
  match v with
  | .dict d => (keyCandidates.findSome? (fun c => pyFind c d)).isSome
  | _ => false

theorem get_list_item_key_index_free {v : Value} (h : hasKeyFieldB v = true)
    (i j : Nat) : get_list_item_key v i = get_list_item_key v j := by
  match v with
  | .dict d =>
    simp only [hasKeyFieldB] at h
    obtain ⟨w, hw⟩ := Option.isSome_iff_exists.mp h
    simp [get_list_item_key, hw]
  | .scalar s => simp [hasKeyFieldB] at h
  | .list l => simp [hasKeyFieldB] at h

theorem keysOf_pyDictInsert_mem (acc : List (String × Value)) (key : String) (v : Value)
    (k : String) : k ∈ keysOf (pyDictInsert acc key v) ↔ k = key ∨ k ∈ keysOf acc := by
  rw [keysOf_pyDictInsert]
  split
  · next hmem =>
    constructor
    · exact fun h => Or.inr h
    · rintro (rfl | h)
      · exact hmem
      · exact h
  · simp [or_comm]

theorem keyedItems_keys_iff (l : List Value) (hkf : ∀ v ∈ l, hasKeyFieldB v = true)
    (k : String) :
    k ∈ keysOf (keyedItems l) ↔ ∃ v ∈ l, get_list_item_key v 0 = k := by
  have main : ∀ (l2 : List Value), (∀ v ∈ l2, hasKeyFieldB v = true) →
      ∀ (i : Nat) (acc : List (String × Value)),
      k ∈ keysOf (keyedItemsFrom i l2 acc) ↔
        (∃ v ∈ l2, get_list_item_key v 0 = k) ∨ k ∈ keysOf acc := by
    intro l2
    induction l2 with
    | nil => intro _ i acc; simp [keyedItemsFrom]
    | cons item rest ih =>
      intro hkf2 i acc
      simp only [keyedItemsFrom]
      rw [ih (fun v hv => hkf2 v (List.mem_cons_of_mem _ hv))]
      rw [keysOf_pyDictInsert_mem]
      have hidx : get_list_item_key item i = get_list_item_key item 0 :=
        get_list_item_key_index_free (hkf2 item (List.mem_cons_self _ _)) i 0
      constructor
      · rintro (⟨v, hv, rfl⟩ | rfl | h)
        · exact Or.inl ⟨v, List.mem_cons_of_mem _ hv, rfl⟩
        · exact Or.inl ⟨item, List.mem_cons_self _ _, hidx.symm⟩
        · exact Or.inr h
      · rintro (⟨v, hv, rfl⟩ | h)
        · rcases List.mem_cons.mp hv with rfl | hv2
          · exact Or.inr (Or.inl hidx.symm)
          · exact Or.inl ⟨v, hv2, rfl⟩
        · exact Or.inr (Or.inr h)
  rw [keyedItems, main l hkf 0 []]
  simp [keysOf]

theorem compare_keyed_covered (cur_items pall : List (String × Value)) (p : String)
    (hnd : (keysOf pall).Nodup)
    (hcov : ∀ k ∈ keysOf pall, (pyFind k cur_items).isSome = true) :
    ∀ pi : List (String × Value), (∀ e ∈ pi, e ∈ pall) →
      ∀ r ∈ compare_keyed cur_items pi p,
        ∃ k ci pi2, pyFind k cur_items = some ci ∧ pyFind k pall = some pi2 ∧
          pyEq ci pi2 = false ∧ r ∈ compare_section ci pi2 (p ++ "[" ++ k ++ "]") := by
  intro pi
  induction pi with
  | nil => intro _ r hr; rw [compare_keyed.eq_def] at hr; simp at hr
  | cons e rest ih =>
    intro hsub r hr
    obtain ⟨k, item⟩ := e
    have hstep : compare_keyed cur_items ((k, item) :: rest) p =
        (match pyFind k cur_items with
         | none => [{ path := p ++ "[" ++ k ++ "]", change_type := "added",
                      new_value := some item,
                      description := "Added list item: " ++ (p ++ "[" ++ k ++ "]") }]
         | some cur_item =>
           if pyEq cur_item item then []
           else compare_section cur_item item (p ++ "[" ++ k ++ "]"))
        ++ compare_keyed cur_items rest p := by
      rw [compare_keyed.eq_def]
    rw [hstep, List.mem_append] at hr
    rcases hr with hr | hr
    · have hmem : (k, item) ∈ pall := hsub _ (List.mem_cons_self _ _)
      have hkp : k ∈ keysOf pall := by
        simpa [keysOf] using List.mem_map_of_mem Prod.fst hmem
      obtain ⟨ci, hci⟩ := Option.isSome_iff_exists.mp (hcov k hkp)
      simp only [hci] at hr
      have hfp : pyFind k pall = some item :=
        pyFind_eq_of_mem (nodupKeys_iff.mpr hnd) hmem
      by_cases heq : pyEq ci item = true
      · rw [if_pos heq] at hr
        simp at hr
      · rw [if_neg heq] at hr
        exact ⟨k, ci, item, hci, hfp, Bool.not_eq_true _ ▸ heq, hr⟩
    · exact ih (fun e he => hsub _ (List.mem_cons_of_mem _ he)) r hr

/-- C3: when every element of both lists is a mapping carrying a key field and
every proposed key-field value also occurs among the current list's key-field
values, diffing the proposed list against ANY permutation of the current list
produces no element-level `added` (and no `deleted`) records: every emitted
record arises inside a key-matched pair of elements with unequal content,
reported under the `path[key]` segment of the matched element. -/
theorem c3_list_identity_stability (current_list current_list2 proposed_list : List Value)
    (p : String)
    (hperm : current_list2.Perm current_list)
    (hne : proposed_list ≠ [])
    (hkfp : ∀ v ∈ proposed_list, hasKeyFieldB v = true)
    (hkfc : ∀ v ∈ current_list, hasKeyFieldB v = true)
    (hkeys : ∀ k ∈ keysOf (keyedItems proposed_list), k ∈ keysOf (keyedItems current_list)) :
    ∀ r ∈ compare_lists current_list2 proposed_list p,
      (∃ k ci pi2, pyFind k (keyedItems current_list2) = some ci ∧
        pyFind k (keyedItems proposed_list) = some pi2 ∧
        pyEq ci pi2 = false ∧ r ∈ compare_section ci pi2 (p ++ "[" ++ k ++ "]")) ∧
      r.change_type ≠ "deleted" := by
  intro r hr
  have hkfc2 : ∀ v ∈ current_list2, hasKeyFieldB v = true :=
    fun v hv => hkfc v (hperm.mem_iff.mp hv)
  have hnotall : proposed_list.all isScalarB = false := by
    cases proposed_list with
    | nil => exact absurd rfl hne
    | cons v rest =>
      have := hkfp v (List.mem_cons_self _ _)
      cases v with
      | dict d => simp [List.all_cons, isScalarB]
      | scalar s => simp [hasKeyFieldB] at this
      | list l => simp [hasKeyFieldB] at this
  have hlists : compare_lists current_list2 proposed_list p =
      compare_keyed (keyedItems current_list2) (keyedItems proposed_list) p := by
    rw [compare_lists.eq_def, hnotall]
    simp
  rw [hlists] at hr
  have hcov : ∀ k ∈ keysOf (keyedItems proposed_list),
      (pyFind k (keyedItems current_list2)).isSome = true := by
    intro k hk
    have hk1 : k ∈ keysOf (keyedItems current_list) := hkeys k hk
    rw [keyedItems_keys_iff _ hkfc] at hk1
    obtain ⟨v, hv, hvk⟩ := hk1
    have hk2 : k ∈ keysOf (keyedItems current_list2) := by
      rw [keyedItems_keys_iff _ hkfc2]
      exact ⟨v, hperm.mem_iff.mpr hv, hvk⟩
    rw [pyFind_isSome_iff]
    exact hk2
  refine ⟨compare_keyed_covered (keyedItems current_list2) (keyedItems proposed_list) p
    (nodup_keysOf_keyedItems _) hcov (keyedItems proposed_list) (fun e he => he) r hr, ?_⟩
  intro hdel
  rcases noDeleted_keyed _ _ _ r hr with h | h <;> simp [h] at hdel

/-- Witness for C3: the proposed single-element list (key `a`, changed content)
against the current two-element list in swapped order. -/
theorem c3_list_identity_stability_witness :
    (List.Perm
      [Value.dict [("name", Value.scalar (Scalar.str "b"))],
       Value.dict [("name", Value.scalar (Scalar.str "a")), ("v", Value.scalar (Scalar.int 1))]]
      [Value.dict [("name", Value.scalar (Scalar.str "a")), ("v", Value.scalar (Scalar.int 1))],
       Value.dict [("name", Value.scalar (Scalar.str "b"))]]) ∧
    ([Value.dict [("name", Value.scalar (Scalar.str "a")), ("v", Value.scalar (Scalar.int 2))]] ≠
      ([] : List Value)) ∧
    (∀ v ∈ [Value.dict [("name", Value.scalar (Scalar.str "a")), ("v", Value.scalar (Scalar.int 2))]],
      hasKeyFieldB v = true) ∧
    (∀ v ∈ [Value.dict [("name", Value.scalar (Scalar.str "a")), ("v", Value.scalar (Scalar.int 1))],
        Value.dict [("name", Value.scalar (Scalar.str "b"))]], hasKeyFieldB v = true) ∧
    (∀ k ∈ keysOf (keyedItems
        [Value.dict [("name", Value.scalar (Scalar.str "a")), ("v", Value.scalar (Scalar.int 2))]]),
      k ∈ keysOf (keyedItems
        [Value.dict [("name", Value.scalar (Scalar.str "a")), ("v", Value.scalar (Scalar.int 1))],
         Value.dict [("name", Value.scalar (Scalar.str "b"))]])) ∧
    (∀ r ∈ compare_lists
        [Value.dict [("name", Value.scalar (Scalar.str "b"))],
         Value.dict [("name", Value.scalar (Scalar.str "a")), ("v", Value.scalar (Scalar.int 1))]]
        [Value.dict [("name", Value.scalar (Scalar.str "a")), ("v", Value.scalar (Scalar.int 2))]]
        "acl-entries",
      (∃ k ci pi2, pyFind k (keyedItems
          [Value.dict [("name", Value.scalar (Scalar.str "b"))],
           Value.dict [("name", Value.scalar (Scalar.str "a")), ("v", Value.scalar (Scalar.int 1))]]) = some ci ∧
        pyFind k (keyedItems
          [Value.dict [("name", Value.scalar (Scalar.str "a")), ("v", Value.scalar (Scalar.int 2))]]) = some pi2 ∧
        pyEq ci pi2 = false ∧ r ∈ compare_section ci pi2 ("acl-entries" ++ "[" ++ k ++ "]")) ∧
      r.change_type ≠ "deleted") := by
  refine ⟨List.Perm.swap _ _ _, by simp, by decide, by decide, by decide, ?_⟩
  exact c3_list_identity_stability _ _ _ _ (List.Perm.swap _ _ _) (by simp) (by decide)
    (by decide) (by decide)

/-- Index of the first occurrence of a character (Python `s.find(c)`), if any. -/
def charIndex (c : Char) : List Char → Option Nat
  | [] => none
  | x :: xs => if x = c then some 0 else (charIndex c xs).map (· + 1)

/-- First bracketed value of a path segment, exactly as the Python sources
compute it: `start = part.find('[') + 1`, `end = part.find(']')`, and the
slice `part[start:end]` is used only when `start < end`. -/
def bracketValue (part : String) : Option String :=
  match charIndex '[' part.data, charIndex ']' part.data with
  | some bi, some ei =>
    if bi + 1 < ei then some (String.mk ((part.data.drop (bi + 1)).take (ei - (bi + 1))))
    else none
  | _, _ => none

/-- Python `s.isdigit()` (restricted to ASCII digits, the only digits occurring
in this system's identifiers). -/
def isDigits (s : String) : Bool := s ≠ "" && s.data.all Char.isDigit

/-- Python `s.lower()` (ASCII). -/
def pyLower (s : String) : String := String.mk (s.data.map Char.toLower)

/-- Strip a prefix, returning the remainder when it matches. -/
def stripPrefixC : List Char → List Char → Option (List Char)
  | [], s => some s
  | _ :: _, [] => none
  | p :: ps, c :: cs => if c = p then stripPrefixC ps cs else none

theorem stripPrefixC_length : ∀ (pat s t : List Char),
    stripPrefixC pat s = some t → t.length + pat.length = s.length := by
  intro pat
  induction pat with
  | nil => intro s t h; simp [stripPrefixC] at h; simp [h]
  | cons p ps ih =>
    intro s t h
    cases s with
    | nil => simp [stripPrefixC] at h
    | cons c cs =>
      simp only [stripPrefixC] at h
      split at h
      · have := ih cs t h
        simp [List.length_cons]
        omega
      · exact absurd h (by simp)

/-- Python `s.replace(pat, rep)`: replace every non-overlapping occurrence,
scanning left to right (defined for the non-empty patterns the source uses;
an empty pattern leaves the string unchanged). -/
def replaceC (pat rep : List Char) (s : List Char) : List Char :=
  if hp : pat = [] then s
  else match s with
    | [] => []
    | c :: rest =>
      match h : stripPrefixC pat (c :: rest) with
      | some tail2 => rep ++ replaceC pat rep tail2
      | none => c :: replaceC pat rep rest
termination_by s.length
decreasing_by
  · have := stripPrefixC_length pat (c :: rest) tail2 h
    have hl : 1 ≤ pat.length := by
      cases pat with
      | nil => exact absurd rfl hp
      | cons a b => simp
    simp only [List.length_cons] at this ⊢
    omega
  · simp

/-- Python `s.replace(old, new)` on strings. -/
def pyReplace (s pat rep : String) : String := String.mk (replaceC pat.data rep.data s.data)

/-- Lowercased nonempty `/`-components of a path
(`[p.lower() for p in path.split('/') if p]` in `_schema_path_matches`). -/
def toLowerParts (s : String) : List String :=
  (pySplit '/' s).filterMap (fun p => if p = "" then none else some (pyLower p))

/-- Normalized components of a leafref target path in `_schema_path_matches`:
the whole path is lowercased, split on `/`, each part has `ietf-interfaces:`
and `ietf-` stripped, and empty, `interfaces-state` and `interface` parts are
dropped. -/
def targetParts (target_path : String) : List String :=
  (pySplit '/' (pyLower target_path)).filterMap (fun part =>
    let clean := pyReplace (pyReplace part "ietf-interfaces:" "") "ietf-" ""
    if clean ≠ "" ∧ clean ≠ "interfaces-state" ∧ clean ≠ "interface" then some clean
    else none)

/-- The interface-domain keywords of `_schema_path_matches`. -/
def interfaceKeywords : List String := ["interface", "interfaces", "if", "int", "name"]

/-- One leafref reference edge extracted from the schema
(`leafref` dicts produced by the yangson extractor). -/
structure Leafref where
  source_path : String
  target_path : String
  description : String := ""

/-- Embeds `TrueSchemaDrivenAnalyzer._schema_path_matches`: an
interface-keyword co-occurrence on both sides matches, otherwise any raw
lowercased change-path token occurring among the source tokens or the
normalized target tokens matches. -/
def schema_path_matches (config_path : String) (lr : Leafref) : Bool :=
  let config_parts := toLowerParts config_path
  let source_parts := toLowerParts lr.source_path
  let target_parts := targetParts lr.target_path
  let config_has_interface := interfaceKeywords.any (fun kw => config_parts.contains kw)
  let leafref_is_interface :=
    interfaceKeywords.any (fun kw => (source_parts ++ target_parts).contains kw)
  if config_has_interface && leafref_is_interface then true
  else
    let source_match := config_parts.any (fun part => source_parts.contains part)
    let target_match := config_parts.any (fun part => target_parts.contains part)
    source_match || target_match

/-- Embeds `TrueSchemaDrivenAnalyzer._extract_object_identifier`: first
non-numeric bracketed value of any segment, else the last segment that, after
dropping a `module:` prefix, is nonempty and neither `config` nor `state`,
else `"Unknown"`. -/
def extract_object_identifier (config_path : String) : String :=
  let parts := pySplit '/' config_path
  match parts.findSome? (fun part =>
    match bracketValue part with
    | some ident => if isDigits ident then none else some ident
    | none => none) with
  | some ident => ident
  | none =>
    let meaningful := parts.filterMap (fun part =>
      let clean := if part.data.contains ':' then (pySplit ':' part).getLastD part else part
      if clean ≠ "" ∧ clean ≠ "config" ∧ clean ≠ "state" then some clean else none)
    (meaningful.getLast?).getD "Unknown"

/-- Embeds `_extract_identifier_from_path` in `src/src/cli/main.py`: the first
bracketed value of any segment — returned even when purely numeric, despite
the inline comment, and with an empty-string fallback. -/
def extract_identifier_from_path (path : String) : String :=
  ((pySplit '/' path).findSome? bracketValue).getD ""

/-- C8: at the path `acl-sets/acl-set[5]/config/name` (a purely numeric
sequence-number key), the analyzer's `_extract_object_identifier` skips the
numeric bracket and falls back to the last non-generic segment `name`, as the
claim describes — but the CLI's `_extract_identifier_from_path` returns the
numeric `5` (contradicting its own `Skip numeric identifiers` comment) and
would return `""` rather than a last-segment fallback if no bracket existed. -/
theorem c8_identifier_extraction :
    extract_object_identifier "acl-sets/acl-set[5]/config/name" = "name" ∧
    extract_identifier_from_path "acl-sets/acl-set[5]/config/name" = "5" ∧
    extract_identifier_from_path "acl-sets/acl-set/config/name" = "" ∧
    ("5" : String) ≠ "name" := by
  refine ⟨by decide, by decide, by decide, by decide⟩

/-- The claim's normalization of a path: lowercase `/`-tokens with `module:`
prefixes and the vendor prefix `ietf-` stripped, and the structurally
uninteresting segments `config`, `state` and `interfaces-state` removed. -/
def c7_claim_tokens (path : String) : List String :=
  (pySplit '/' path).filterMap (fun p =>
    let q := pyLower p
    let q2 := if q.data.contains ':' then (pySplit ':' q).getLastD q else q
    let q3 :=
      match stripPrefixC "ietf-".data q2.data with
      | some restc => String.mk restc
      | none => q2
    if q3 ≠ "" ∧ q3 ≠ "config" ∧ q3 ≠ "state" ∧ q3 ≠ "interfaces-state" then some q3
    else none)

/-- Counterexample to C7 as stated: the change paths `foo/config` and `foo`
normalize to the same token sequence under the claim's normalization (which
removes `config`), yet the matcher treats them differently against the edge
`{source: "config", target: ""}` — because the code never removes `config` or
`state` from the change-path or source-path tokens (it removes only
`interfaces-state`/`interface`, and only from the target path). -/
theorem c7_counterexample :
    c7_claim_tokens "foo/config" = c7_claim_tokens "foo" ∧
    schema_path_matches "foo/config" { source_path := "config", target_path := "" } = true ∧
    schema_path_matches "foo" { source_path := "config", target_path := "" } = false := by
  refine ⟨by decide, ?_, ?_⟩
  · simp [schema_path_matches, toLowerParts, targetParts, pySplit, splitCharList,
      pyLower, pyReplace, replaceC, interfaceKeywords]
  · simp [schema_path_matches, toLowerParts, targetParts, pySplit, splitCharList,
      pyLower, pyReplace, replaceC, interfaceKeywords]

/-- The matcher relation that the code actually implements, written out
declaratively: both sides mention an interface keyword (the change path among
its raw lowercased tokens, the edge among its raw lowercased source tokens or
prefix-stripped target tokens), or some raw lowercased change-path token
occurs among the source tokens or the normalized target tokens.  Stripping
(`ietf-interfaces:`, `ietf-`) and segment removal (`interfaces-state`,
`interface`, empty) apply only to the target path; `config` and `state` are
never removed. -/
def matchesAmendedSpec (config_path : String) (lr : Leafref) : Prop :=
  ((∃ kw ∈ interfaceKeywords, kw ∈ toLowerParts config_path) ∧
    (∃ kw ∈ interfaceKeywords,
      kw ∈ toLowerParts lr.source_path ∨ kw ∈ targetParts lr.target_path)) ∨
  (∃ t ∈ toLowerParts config_path,
    t ∈ toLowerParts lr.source_path ∨ t ∈ targetParts lr.target_path)

/-- C7 (amended): the match predicate holds exactly when the declarative
relation `matchesAmendedSpec` holds — lowercasing applies to all three paths,
but prefix stripping and uninteresting-segment removal apply only to the
target path, and the removed segments are `interfaces-state` and `interface`
rather than `config`/`state`. -/
theorem contains_iff {l : List String} {a : String} : l.contains a = true ↔ a ∈ l :=
  List.elem_iff

theorem c7_matcher_amended (config_path : String) (lr : Leafref) :
    schema_path_matches config_path lr = true ↔ matchesAmendedSpec config_path lr := by
  simp only [schema_path_matches, matchesAmendedSpec]
  by_cases hc : (interfaceKeywords.any (fun kw => (toLowerParts config_path).contains kw) &&
      interfaceKeywords.any (fun kw =>
        (toLowerParts lr.source_path ++ targetParts lr.target_path).contains kw)) = true
  · rw [if_pos hc]
    simp only [Bool.and_eq_true, List.any_eq_true, contains_iff, List.mem_append] at hc
    simp only [true_iff]
    exact Or.inl hc
  · rw [if_neg hc]
    simp only [Bool.and_eq_true, List.any_eq_true, contains_iff, List.mem_append] at hc
    simp only [Bool.or_eq_true, List.any_eq_true, contains_iff]
    constructor
    · intro h
      right
      rcases h with ⟨t, ht, hm⟩ | ⟨t, ht, hm⟩
      · exact ⟨t, ht, Or.inl hm⟩
      · exact ⟨t, ht, Or.inr hm⟩
    · rintro (hboth | ⟨t, ht, hm⟩)
      · exact absurd hboth hc
      · rcases hm with hm | hm
        · exact Or.inl ⟨t, ht, hm⟩
        · exact Or.inr ⟨t, ht, hm⟩

/-- Python `pat in s` substring test. -/
def isPrefixOfC : List Char → List Char → Bool
  | [], _ => true
  | _ :: _, [] => false
  | p :: ps, c :: cs => (c = p) && isPrefixOfC ps cs

/-- Substring occurrence scan for `strContains`. -/
def containsSubC (pat : List Char) : List Char → Bool
  | [] => isPrefixOfC pat []
  | c :: rest => isPrefixOfC pat (c :: rest) || containsSubC pat rest

/-- Python `pat in s` on strings (true for the empty pattern). -/
def strContains (s pat : String) : Bool := containsSubC pat.data s.data

/-- Python `str.title()` helper: capitalize the first character of every
alphabetic run, lowercase the rest. -/
def pyTitleGo : Bool → List Char → List Char
  | _, [] => []
  | prevAlpha, c :: cs =>
    (if c.isAlpha then (if prevAlpha then c.toLower else c.toUpper) else c) ::
      pyTitleGo c.isAlpha cs

/-- Python `s.title()` (ASCII). -/
def pyTitle (s : String) : String := String.mk (pyTitleGo false s.data)

/-- Embeds `_extract_config_object_name` in `src/src/cli/main.py`: human label
for a change path's first segment (module prefix dropped via `split(':')[1]`,
well-known subsystem labels, title-cased fallback). -/
def extract_config_object_name (path : String) : String :=
  if path = "device" then "Device Information"
  else
    let parts := pySplit '/' path
    let main0 := parts.headD ""
    let main_section := if main0.data.contains ':' then (pySplit ':' main0).getD 1 "" else main0
    if strContains main_section "network-instance" then "BGP Configuration"
    else if strContains main_section "acl" then "Access Control Lists"
    else if strContains main_section "vlan" then "VLAN Configuration"
    else if strContains main_section "interface" then "Interface Configuration"
    else pyTitle (String.mk (main_section.data.map (fun c => if c = '-' then ' ' else c)))

/-- Embeds `_extract_config_object_identifier` in `main.py`: first bracketed
value of any path segment. -/
def extract_config_object_identifier (path : String) : Option String :=
  (pySplit '/' path).findSome? bracketValue

/-- Embeds `_path_relates_to_change` in `main.py`: equal bracketed object
identifiers when both paths carry one, else a positional substring overlap of
the leading segments. -/
def path_relates_to_change (dependency_path change_path : String) : Bool :=
  match extract_config_object_identifier dependency_path,
      extract_config_object_identifier change_path with
  | some dep_object, some change_object => dep_object == change_object
  | _, _ =>
    let dep_parts := pySplit '/' dependency_path
    let change_parts := pySplit '/' change_path
    (List.range (min change_parts.length dep_parts.length)).any (fun i =>
      strContains (dep_parts.getD i "") (change_parts.getD i ""))

/-- CLI `Dependency` dataclass of `main.py` (its `source_value` always holds a
string or `None` in this program; `target_object` a resolved value or `None`). -/
structure Dependency where
  source_path : String
  target_path : String
  dependency_type : String
  source_value : Option String := none
  target_object : Option Value := none
  description : String := ""
  display_source : String := ""
  display_target : String := ""
  config_object_type : String := ""

/-- Append an element to a Python dict-of-lists grouping, preserving insertion
order. -/
def pyGroup {α : Type} : List (String × List α) → String → α → List (String × List α)
  | [], k, x => [(k, [x])]
  | (k0, l) :: rest, k, x =>
    if k0 == k then (k0, l ++ [x]) :: rest else (k0, l) :: pyGroup rest k x

/-- The `changes_by_object` grouping loop of `_analyze_per_object_impact`. -/
def changes_by_object (changes : List ConfigChange) : List (String × List ConfigChange) :=
  changes.foldl (fun acc c => pyGroup acc (extract_config_object_name c.path) c) []

/-- The `object_dependencies` collection loop of `_analyze_per_object_impact`. -/
def object_dependencies_of (object_changes : List ConfigChange)
    (dependencies : List Dependency) : List Dependency :=
  object_changes.bind (fun c =>
    dependencies.filter (fun d => path_relates_to_change d.source_path c.path))

/-- The `changed_identifiers` extraction loop of `_analyze_per_object_impact`:
all distinct non-numeric bracketed values of the group's change paths. -/
def changed_identifiers_of (object_changes : List ConfigChange) : List String :=
  object_changes.foldl (fun acc c =>
    (pySplit '/' c.path).foldl (fun acc2 part =>
      match bracketValue part with
      | some ident =>
        if !acc2.contains ident && !isDigits ident then acc2 ++ [ident] else acc2
      | none => acc2) acc) []

/-- Embeds `_resolve_dependency_target_identifiers` in `main.py` (the fallback
"old method"): the source-path identifier, listed once, only for truthy
extractions (`current_config` is accepted and ignored, as in the source). -/
def resolve_dependency_target_identifiers (dep : Dependency)
    (_current_config : ConfigDict) : List String :=
  let ids1 :=
    if dep.dependency_type == "schema_leafref" then
      (let changed_identifier := extract_identifier_from_path dep.source_path
       if changed_identifier ≠ "" then [changed_identifier] else [])
    else []
  let source_identifier := extract_identifier_from_path dep.source_path
  if source_identifier ≠ "" ∧ ¬ ids1.contains source_identifier = true then
    ids1 ++ [source_identifier]
  else ids1

/-- One iteration of the `impacted_identifiers` loop of
`_analyze_per_object_impact`: a resolved `display_target` contributes its
comma-separated names, otherwise the fallback resolver's identifiers — in both
branches a name already among the group's changed identifiers (or already
collected) is skipped. -/
def impacted_step (changed : List String) (current_config : ConfigDict)
    (acc : List String) (dep : Dependency) : List String :=
  if dep.display_target ≠ "" ∧ dep.display_target ≠ dep.target_path then
    (pySplit ',' dep.display_target).foldl (fun a n =>
      let name := n.trim
      if name ≠ "" ∧ ¬ changed.contains name = true ∧ ¬ a.contains name = true then
        a ++ [name]
      else a) acc
  else
    (resolve_dependency_target_identifiers dep current_config).foldl (fun a ident =>
      if ¬ changed.contains ident = true ∧ ¬ a.contains ident = true then a ++ [ident]
      else a) acc

/-- The `impacted_identifiers` collection loop of `_analyze_per_object_impact`. -/
def impacted_identifiers_of (object_dependencies : List Dependency)
    (changed : List String) (current_config : ConfigDict) : List String :=
  object_dependencies.foldl (impacted_step changed current_config) []

/-- The dependency deduplication loop of `_analyze_per_object_impact`: first
occurrence per `(target_path, source_value)` key wins. -/
def dedup_dependencies : List Dependency → List (String × Option String) → List Dependency
  | [], _ => []
  | d :: ds, seen =>
    if seen.contains (d.target_path, d.source_value) then dedup_dependencies ds seen
    else d :: dedup_dependencies ds ((d.target_path, d.source_value) :: seen)

/-- Per-object entry of the impact analysis result. -/
structure ObjectImpact where
  change_count : Nat
  dependencies : List Dependency
  all_identifiers : List String

/-- Result dictionary of `_analyze_per_object_impact`. -/
structure ImpactAnalysis where
  object_impacts : List (String × ObjectImpact)
  total_objects_changed : Nat
  total_objects_with_impacts : Nat

/-- Embeds `_analyze_per_object_impact` in `src/src/cli/main.py`. -/
def analyze_per_object_impact (changes : List ConfigChange)
    (dependencies : List Dependency) (current_config : ConfigDict) : ImpactAnalysis :=
  let groups := changes_by_object changes
  let object_impacts := groups.map (fun g =>
    let object_changes := g.2
    let object_deps := object_dependencies_of object_changes dependencies
    let changed := changed_identifiers_of object_changes
    let impacted := impacted_identifiers_of object_deps changed current_config
    (g.1, { change_count := object_changes.length,
            dependencies := dedup_dependencies object_deps [],
            all_identifiers := changed ++ impacted : ObjectImpact }))
  { object_impacts := object_impacts,
    total_objects_changed := groups.length,
    total_objects_with_impacts :=
      (object_impacts.filter (fun g => !g.2.dependencies.isEmpty)).length }

theorem foldl_grow_invariant {β : Type} (P : String → Prop)
    (f : List String → β → List String)
    (hf : ∀ acc b x, x ∈ f acc b → x ∈ acc ∨ P x) :
    ∀ (items : List β) (acc : List String), (∀ x ∈ acc, P x) →
      ∀ x ∈ items.foldl f acc, P x := by
  intro items
  induction items with
  | nil => intro acc hacc x hx; exact hacc x hx
  | cons b rest ih =>
    intro acc hacc x hx
    refine ih (f acc b) ?_ x hx
    intro y hy
    rcases hf acc b y hy with h | h
    · exact hacc y h
    · exact h

theorem impacted_step_mem {changed : List String} {current_config : ConfigDict}
    {acc : List String} {dep : Dependency} {x : String}
    (hx : x ∈ impacted_step changed current_config acc dep) :
    x ∈ acc ∨ ¬ changed.contains x = true := by
  rw [impacted_step.eq_def] at hx
  split at hx
  · refine foldl_grow_invariant (fun y => y ∈ acc ∨ ¬ changed.contains y = true)
      _ ?_ _ acc (fun y hy => Or.inl hy) x hx
    intro a n y hy
    have hy2 : y ∈ (if n.trim ≠ "" ∧ ¬ changed.contains n.trim = true ∧
        ¬ a.contains n.trim = true then a ++ [n.trim] else a) := hy
    split at hy2
    · next hcond =>
      rw [List.mem_append] at hy2
      rcases hy2 with hy2 | hy2
      · exact Or.inl hy2
      · simp only [List.mem_singleton] at hy2
        subst hy2
        exact Or.inr (Or.inr hcond.2.1)
    · exact Or.inl hy2
  · refine foldl_grow_invariant (fun y => y ∈ acc ∨ ¬ changed.contains y = true)
      _ ?_ _ acc (fun y hy => Or.inl hy) x hx
    intro a n y hy
    have hy2 : y ∈ (if ¬ changed.contains n = true ∧ ¬ a.contains n = true
        then a ++ [n] else a) := hy
    split at hy2
    · next hcond =>
      rw [List.mem_append] at hy2
      rcases hy2 with hy2 | hy2
      · exact Or.inl hy2
      · simp only [List.mem_singleton] at hy2
        subst hy2
        exact Or.inr (Or.inr hcond.1)
    · exact Or.inl hy2

theorem impacted_identifiers_disjoint (object_dependencies : List Dependency)
    (changed : List String) (current_config : ConfigDict) :
    ∀ x ∈ impacted_identifiers_of object_dependencies changed current_config,
      x ∉ changed := by
  intro x hx
  have h := foldl_grow_invariant (fun y => ¬ changed.contains y = true)
    (impacted_step changed current_config)
    (fun acc dep y hy => impacted_step_mem hy)
    object_dependencies [] (by simp) x hx
  simp only at h
  rw [← contains_iff]
  exact h

/-- C5: in every group that the per-object impact aggregation produces, the
identifiers resolved from the group's dependencies (the `impacted` part of
`all_identifiers`) never include an identifier already extracted from the
group's own changed paths — a change is never reported as impacting itself. -/
theorem c5_non_self_impact (changes : List ConfigChange)
    (dependencies : List Dependency) (current_config : ConfigDict)
    (name : String) (impact : ObjectImpact)
    (hmem : (name, impact) ∈ (analyze_per_object_impact changes dependencies current_config).object_impacts) :
    ∃ object_changes, (name, object_changes) ∈ changes_by_object changes ∧
      impact.all_identifiers =
        changed_identifiers_of object_changes ++
          impacted_identifiers_of (object_dependencies_of object_changes dependencies)
            (changed_identifiers_of object_changes) current_config ∧
      ∀ x ∈ impacted_identifiers_of (object_dependencies_of object_changes dependencies)
          (changed_identifiers_of object_changes) current_config,
        x ∉ changed_identifiers_of object_changes := by
  simp only [analyze_per_object_impact, List.mem_map] at hmem
  obtain ⟨g, hg, he⟩ := hmem
  obtain ⟨gname, gchanges⟩ := g
  rw [Prod.mk.injEq] at he
  obtain ⟨rfl, he2⟩ := he
  refine ⟨gchanges, hg, ?_, ?_⟩
  · rw [← he2]
  · exact fun x hx => impacted_identifiers_disjoint _ _ _ x hx

/-- Witness for C5: a single `vlans/10` change with no dependencies groups
under "VLAN Configuration" with empty impacted identifiers. -/
theorem c5_non_self_impact_witness :
    (("VLAN Configuration",
        { change_count := 1, dependencies := [],
          all_identifiers := [] : ObjectImpact }) ∈
      (analyze_per_object_impact
        [{ path := "vlans/10", change_type := "added" }] [] []).object_impacts) ∧
    (∃ object_changes,
      ("VLAN Configuration", object_changes) ∈
        changes_by_object [{ path := "vlans/10", change_type := "added" }] ∧
      ({ change_count := 1, dependencies := [], all_identifiers := [] : ObjectImpact }).all_identifiers =
        changed_identifiers_of object_changes ++
          impacted_identifiers_of (object_dependencies_of object_changes [])
            (changed_identifiers_of object_changes) [] ∧
      ∀ x ∈ impacted_identifiers_of (object_dependencies_of object_changes [])
          (changed_identifiers_of object_changes) [],
        x ∉ changed_identifiers_of object_changes) := by
  refine ⟨List.Mem.head _, c5_non_self_impact _ _ _ _ _ (List.Mem.head _)⟩

/-- The `ConfigurationChange` dataclass of the schema analyzer. -/
structure ConfigurationChange where
  path : String
  change_type : String
  old_value : Option Value := none
  new_value : Option Value := none

/-- One schema-driven dependency record (`TrueSchemaDependency` dataclass). -/
structure TrueSchemaDependency where
  config_change_path : String
  affected_leafref_source : String
  affected_leafref_target : String
  leafref_description : String
  dependency_type : String
  actual_object_identifier : String := ""
  confidence : String := "schema_verified"

/-- The analyzer's relevant state: the extracted leafref edges and the
`initialized` flag set by `initialize_schema_analysis`. -/
structure AnalyzerState where
  true_leafrefs : List Leafref
  initialized : Bool

/-- Embeds `TrueSchemaDrivenAnalyzer.find_schema_driven_dependencies`: with an
uninitialized analyzer the result is empty; otherwise every change is matched
against every leafref edge and each match yields one dependency record. -/
def find_schema_driven_dependencies (st : AnalyzerState)
    (changes : List ConfigurationChange) : List TrueSchemaDependency :=
  if !st.initialized then []
  else changes.bind (fun change =>
    st.true_leafrefs.filterMap (fun lr =>
      if schema_path_matches change.path lr then
        some { config_change_path := change.path,
               affected_leafref_source := lr.source_path,
               affected_leafref_target := lr.target_path,
               leafref_description := lr.description,
               dependency_type := "direct_leafref",
               actual_object_identifier := extract_object_identifier change.path }
      else none))

/-- Outcome of the CLI `analyze-impact` command after the schema analysis step
(the fields the fallback path of `main.py` lines 503-514 populates). -/
structure PipelineResult where
  dependencies : List Dependency
  total_dependencies : Nat
  impact_analysis : ImpactAnalysis

/-- Embeds the CLI's schema-failure fallback branch (`main.py`): when the
schema result carries no `success` flag the command prints an error line but
continues with an empty dependency list, a zeroed dependency summary, and the
per-object impact analysis computed from the diff changes alone. -/
def run_analysis_after_schema_failure (changes : List ConfigChange)
    (current_config : ConfigDict) : PipelineResult :=
  { dependencies := [],
    total_dependencies := 0,
    impact_analysis := analyze_per_object_impact changes [] current_config }

theorem object_dependencies_of_nil (object_changes : List ConfigChange) :
    object_dependencies_of object_changes [] = [] := by
  simp [object_dependencies_of]

/-- C6: with schema analysis uninitialized (no model or no extracted edges)
the dependency matcher returns the empty list for every change set, and the
pipeline's fallback still produces a well-formed result: zero dependencies in
total, every changed object's group present (one per grouped object, same
labels in order), and an empty dependency list in every group. -/
theorem c6_empty_schema_fallback (st : AnalyzerState)
    (changes : List ConfigurationChange)
    (h : st.initialized = false) :
    find_schema_driven_dependencies st changes = [] ∧
    ∀ (diff_changes : List ConfigChange) (current_config : ConfigDict),
      (run_analysis_after_schema_failure diff_changes current_config).dependencies = [] ∧
      (run_analysis_after_schema_failure diff_changes current_config).total_dependencies = 0 ∧
      (run_analysis_after_schema_failure diff_changes current_config).impact_analysis.object_impacts.map Prod.fst =
        (changes_by_object diff_changes).map Prod.fst ∧
      (run_analysis_after_schema_failure diff_changes current_config).impact_analysis.total_objects_changed =
        (changes_by_object diff_changes).length ∧
      ∀ g ∈ (run_analysis_after_schema_failure diff_changes current_config).impact_analysis.object_impacts,
        g.2.dependencies = [] := by
  constructor
  · simp [find_schema_driven_dependencies, h]
  · intro diff_changes current_config
    refine ⟨rfl, rfl, ?_, rfl, ?_⟩
    · simp [run_analysis_after_schema_failure, analyze_per_object_impact]
    · intro g hg
      simp only [run_analysis_after_schema_failure, analyze_per_object_impact,
        List.mem_map] at hg
      obtain ⟨g0, hg0, he⟩ := hg
      rw [← he]
      simp [object_dependencies_of_nil, dedup_dependencies]

/-- Witness for C6 at a concrete uninitialized analyzer state and change. -/
theorem c6_empty_schema_fallback_witness :
    ({ true_leafrefs := [{ source_path := "s", target_path := "t" }],
       initialized := false : AnalyzerState }).initialized = false ∧
    find_schema_driven_dependencies
      { true_leafrefs := [{ source_path := "s", target_path := "t" }], initialized := false }
      [{ path := "interfaces/eth0", change_type := "modified" }] = [] ∧
    (run_analysis_after_schema_failure
      [{ path := "vlans/10", change_type := "added" }] []).dependencies = [] ∧
    ∀ g ∈ (run_analysis_after_schema_failure
        [{ path := "vlans/10", change_type := "added" }] []).impact_analysis.object_impacts,
      g.2.dependencies = [] := by
  refine ⟨rfl, (c6_empty_schema_fallback _ [{ path := "interfaces/eth0", change_type := "modified" }] rfl).1,
    ((c6_empty_schema_fallback
      { true_leafrefs := [{ source_path := "s", target_path := "t" }], initialized := false }
      [] rfl).2 [{ path := "vlans/10", change_type := "added" }] []).1,
    ((c6_empty_schema_fallback
      { true_leafrefs := [{ source_path := "s", target_path := "t" }], initialized := false }
      [] rfl).2 [{ path := "vlans/10", change_type := "added" }] []).2.2.2.2⟩

/-- Python truthiness of a value (`if not current_obj`). -/
def pyFalsy : Value → Bool
  | .scalar (.str s) => s == ""
  | .scalar (.int n) => n == 0
  | .scalar .null => true
  | .dict d => d.isEmpty
  | .list l => l.isEmpty

/-- Python `s.strip(chars)`. -/
def pyStripChars (s : String) (cs : List Char) : String :=
  String.mk (((s.data.dropWhile (fun c => cs.contains c)).reverse.dropWhile
    (fun c => cs.contains c)).reverse)

/-- The walk loop of `_get_object_at_path` in `main.py`: follow `/`-segments
through nested dicts, resolving `module:` prefixes and `name[key]` /
`name[field=value]` bracket segments into keyed list-element lookups.  A falsy
or missing intermediate object aborts with `None`.  Shapes on which the Python
code would raise (indexing a scalar or list like a dict) are modelled as
`none`. -/
def get_object_at_path_walk : Option Value → List String → Option Value
  | obj, [] => obj
  | obj, part :: rest =>
    match obj with
    | none => none
    | some v =>
      if pyFalsy v then none
      else
        let part1 := if part.data.contains ':' then (pySplit ':' part).getLastD part else part
        if part1.data.contains '[' && part1.data.contains ']' then
          let list_name := (pySplit '[' part1).headD ""
          let bi := (charIndex '[' part1.data).getD 0
          let ei := (charIndex ']' part1.data).getD 0
          let key_part := String.mk ((part1.data.drop (bi + 1)).take (ei - (bi + 1)))
          let fv : String × String :=
            match charIndex '=' key_part.data with
            | some i => (String.mk (key_part.data.take i),
                pyStripChars (String.mk (key_part.data.drop (i + 1))) ['\x27', '"'])
            | none => ("name", key_part)
          match v with
          | Value.dict d =>
            match pyFind list_name d with
            | some (Value.list items) =>
              get_object_at_path_walk (items.find? (fun it =>
                match it with
                | Value.dict idict =>
                  match pyFind fv.1 idict with
                  | some fvv => pyStr fvv == fv.2
                  | none => false
                | _ => false)) rest
            | _ => none
          | _ => none
        else
          match v with
          | Value.dict d =>
            match pyFind part1 d with
            | some nv => get_object_at_path_walk (some nv) rest
            | none => none
          | _ => none

/-- Embeds `_get_object_at_path` in `main.py`. -/
def get_object_at_path (config : ConfigDict) (path : String) : Option Value :=
  get_object_at_path_walk (some (Value.dict config)) (pySplit '/' (pyStripChars path ['/']))

/-- Embeds `_extract_identifiers_from_object` in `main.py`: truthy, non-numeric
`str()` renderings of the prioritized identifier fields. -/
def extract_identifiers_from_object (obj : Value) : List String :=
  match obj with
  | Value.dict d =>
    ["name", "id", "vlan-id", "sequence-id", "interface-id", "set-name"].foldl
      (fun acc field =>
        match pyFind field d with
        | some fv =>
          if ¬ pyFalsy fv = true then
            (let identifier := pyStr fv
             if ¬ isDigits identifier = true then acc ++ [identifier] else acc)
          else acc
        | none => acc) []
  | _ => []

/-- One ingress/egress block check of `_interface_references_acl`: some member
of the ACL-set list carries `set-name` equal to the ACL name. -/
def acl_sets_reference (acl_config : List (String × Value))
    (sets_key item_key acl_name : String) : Bool :=
  match pyFind sets_key acl_config with
  | some (Value.dict sets) =>
    match pyFind item_key sets with
    | some (Value.list items) =>
      items.any (fun s =>
        match s with
        | Value.dict sd =>
          match pyFind "set-name" sd with
          | some (Value.scalar (Scalar.str n)) => n == acl_name
          | _ => false
        | _ => false)
    | _ => false
  | _ => false

/-- Embeds `_interface_references_acl` in `main.py`: the interface's applied
ingress or egress ACL-set configuration names the ACL. -/
def interface_references_acl (interface_config : Value) (acl_name : String) : Bool :=
  match interface_config with
  | Value.dict d =>
    match pyFind "openconfig-acl:acl" d with
    | some (Value.dict acl_config) =>
      acl_sets_reference acl_config "ingress-acl-sets" "ingress-acl-set" acl_name ||
      acl_sets_reference acl_config "egress-acl-sets" "egress-acl-set" acl_name
    | _ => false
  | _ => false

/-- Step 1 of `_resolve_dependency_target_identifiers_from_current_config`:
identifier extracted directly from the target path. -/
def resolve_stage1 (dep : Dependency) : List String :=
  let extracted := extract_identifier_from_path dep.target_path
  if extracted ≠ "" then [extracted] else []

/-- Steps 1-2 of the resolver: when the path yields nothing, resolve the
target path in the current config and extract identifiers from the resolved
object. -/
def resolve_stage2 (dep : Dependency) (current_config : ConfigDict) : List String :=
  let ids1 := resolve_stage1 dep
  if ids1.isEmpty then
    match get_object_at_path current_config dep.target_path with
    | some target_object =>
      if ¬ pyFalsy target_object = true then
        (extract_identifiers_from_object target_object).foldl
          (fun a i => if ¬ a.contains i = true then a ++ [i] else a) ids1
      else ids1
    | none => ids1
  else ids1

/-- The string `name` field of an interface element, when it has one
(`if "name" in iface` followed by `iface["name"]` in the Python loop). -/
def ifaceNameStr (iface : Value) : Option String :=
  match iface with
  | Value.dict idict =>
    match pyFind "name" idict with
    | some (Value.scalar (Scalar.str nm)) => some nm
    | _ => none
  | _ => none

/-- One iteration of the resolver's ACL fallback loop: append the interface's
name when it references the ACL and is not yet collected.  An interface whose
`name` is not a string is skipped (in Python a non-string name would be
appended raw and crash the CLI when joined for display). -/
def acl_iface_step (acl_name : String) (acc : List String) (iface : Value) : List String :=
  match ifaceNameStr iface with
  | some nm =>
    if interface_references_acl iface acl_name = true ∧ ¬ acc.contains nm = true then
      acc ++ [nm]
    else acc
  | none => acc

/-- Embeds `_resolve_dependency_target_identifiers_from_current_config` in
`main.py`: path extraction, then tree lookup, then — only when both yielded
nothing and the source path mentions `acl` — the interface search fallback. -/
def resolve_dependency_target_identifiers_from_current_config (dep : Dependency)
    (current_config : ConfigDict) : List String :=
  let ids2 := resolve_stage2 dep current_config
  if ids2.isEmpty ∧ strContains (pyLower dep.source_path) "acl" = true then
    match dep.source_value with
    | some acl_name =>
      if acl_name ≠ "" then
        match pyFind "openconfig-interfaces:interfaces" current_config with
        | some (Value.dict ifc) =>
          (match pyFind "interface" ifc with
           | some (Value.list l) => l
           | _ => []).foldl (acl_iface_step acl_name) ids2
        | _ => ids2
      else ids2
    | none => ids2
  else ids2

/-- An interface element whose `name` field is the string `s` and whose
applied ACL configuration references `acl_name`. -/
def NamedReferencingInterface (acl_name : String) (iface : Value) (s : String) : Prop :=
  ifaceNameStr iface = some s ∧ interface_references_acl iface acl_name = true

theorem acl_step_mem (acl_name : String) (acc : List String) (iface : Value) (s : String) :
    s ∈ acl_iface_step acl_name acc iface ↔
      s ∈ acc ∨ NamedReferencingInterface acl_name iface s := by
  simp only [acl_iface_step, NamedReferencingInterface]
  rcases hn : ifaceNameStr iface with - | nm
  · constructor
    · exact Or.inl
    · rintro (h | ⟨he, -⟩)
      · exact h
      · simp at he
  · dsimp only
    by_cases hrefs : interface_references_acl iface acl_name = true
    · by_cases hcon : acc.contains nm = true
      · rw [if_neg (fun hand => hand.2 hcon)]
        constructor
        · exact Or.inl
        · rintro (h | ⟨he, -⟩)
          · exact h
          · obtain rfl : nm = s := by simpa using he
            exact contains_iff.mp hcon
      · rw [if_pos ⟨hrefs, hcon⟩]
        rw [List.mem_append, List.mem_singleton]
        constructor
        · rintro (h | rfl)
          · exact Or.inl h
          · exact Or.inr ⟨rfl, hrefs⟩
        · rintro (h | ⟨he, -⟩)
          · exact Or.inl h
          · obtain rfl : nm = s := by simpa using he
            exact Or.inr rfl
    · rw [if_neg (fun hand => hrefs hand.1)]
      constructor
      · exact Or.inl
      · rintro (h | ⟨-, hr⟩)
        · exact h
        · exact absurd hr hrefs

theorem acl_fold_mem (acl_name : String) :
    ∀ (interfaces : List Value) (acc : List String) (s : String),
      s ∈ interfaces.foldl (acl_iface_step acl_name) acc ↔
        s ∈ acc ∨ ∃ iface ∈ interfaces, NamedReferencingInterface acl_name iface s := by
  intro interfaces
  induction interfaces with
  | nil => intro acc s; simp
  | cons iface rest ih =>
    intro acc s
    rw [List.foldl_cons, ih, acl_step_mem]
    constructor
    · rintro ((h | h) | ⟨if2, hm, h⟩)
      · exact Or.inl h
      · exact Or.inr ⟨iface, List.mem_cons_self _ _, h⟩
      · exact Or.inr ⟨if2, List.mem_cons_of_mem _ hm, h⟩
    · rintro (h | ⟨if2, hm, h⟩)
      · exact Or.inl (Or.inl h)
      · rcases List.mem_cons.mp hm with rfl | hm2
        · exact Or.inl (Or.inr h)
        · exact Or.inr ⟨if2, hm2, h⟩

theorem resolve_stage2_empty (dep : Dependency) (current_config : ConfigDict)
    (h1 : extract_identifier_from_path dep.target_path = "")
    (h2 : ∀ t, get_object_at_path current_config dep.target_path = some t →
      pyFalsy t = true ∨ extract_identifiers_from_object t = []) :
    resolve_stage2 dep current_config = [] := by
  have hs1 : resolve_stage1 dep = [] := by
    simp [resolve_stage1, h1]
  simp only [resolve_stage2, hs1, List.isEmpty_nil, if_true]
  rcases hg : get_object_at_path current_config dep.target_path with - | t
  · rfl
  · rcases h2 t hg with hf | he
    · simp [hf]
    · by_cases hfal : pyFalsy t = true
      · simp [hfal]
      · simp [hfal, he]

/-- C9: for a dependency whose identifier is resolved neither by direct path
extraction (step 1) nor by tree lookup (step 2), the resolver returns no
identifier at all unless the dependency's source path mentions the
access-list subsystem; and when it does (with a truthy ACL name in
`source_value` and an interface list present in the current tree), the result
contains exactly the names of those interfaces whose applied ingress or
egress ACL-set configuration carries `set-name` equal to the changed ACL's
name. -/
theorem c9_acl_interface_fallback (dep : Dependency) (current_config : ConfigDict)
    (h1 : extract_identifier_from_path dep.target_path = "")
    (h2 : ∀ t, get_object_at_path current_config dep.target_path = some t →
      pyFalsy t = true ∨ extract_identifiers_from_object t = []) :
    (strContains (pyLower dep.source_path) "acl" = false →
      resolve_dependency_target_identifiers_from_current_config dep current_config = []) ∧
    ((dep.source_value = none ∨ dep.source_value = some "") →
      resolve_dependency_target_identifiers_from_current_config dep current_config = []) ∧
    (∀ acl_name, dep.source_value = some acl_name → acl_name ≠ "" →
      strContains (pyLower dep.source_path) "acl" = true →
      ∀ ifc interfaces,
        pyFind "openconfig-interfaces:interfaces" current_config = some (Value.dict ifc) →
        pyFind "interface" ifc = some (Value.list interfaces) →
        ∀ s : String,
          s ∈ resolve_dependency_target_identifiers_from_current_config dep current_config ↔
            ∃ iface ∈ interfaces, NamedReferencingInterface acl_name iface s) := by
  have hs2 : resolve_stage2 dep current_config = [] := resolve_stage2_empty dep current_config h1 h2
  refine ⟨?_, ?_, ?_⟩
  · intro hacl
    simp only [resolve_dependency_target_identifiers_from_current_config, hs2]
    rw [if_neg (fun hand => by rw [hacl] at hand; exact Bool.false_ne_true hand.2)]
  · intro hsv
    simp only [resolve_dependency_target_identifiers_from_current_config, hs2]
    split
    · rcases hsv with hsv | hsv <;> simp [hsv]
    · rfl
  · intro acl_name hsv hne hacl ifc interfaces hifc hint s
    simp only [resolve_dependency_target_identifiers_from_current_config, hs2]
    rw [if_pos ⟨List.isEmpty_nil, hacl⟩, hsv]
    simp only [hne, hifc, hint, ne_eq, not_false_eq_true, if_true]
    rw [acl_fold_mem]
    simp

/-- Witness for C9: a leafref dependency on ACL `ACL1` whose target path
resolves to nothing, against a current tree holding interfaces `eth1` (which
applies `ACL1` on ingress) and `eth2` (which applies nothing): the fallback
resolves exactly `eth1`. -/
theorem c9_acl_interface_fallback_witness :
    extract_identifier_from_path "/interfaces/interface/config" = "" ∧
    (∀ t, get_object_at_path
        [("openconfig-interfaces:interfaces", Value.dict [("interface", Value.list
          [Value.dict [("name", Value.scalar (Scalar.str "eth1")),
            ("openconfig-acl:acl", Value.dict [("ingress-acl-sets", Value.dict
              [("ingress-acl-set", Value.list [Value.dict
                [("set-name", Value.scalar (Scalar.str "ACL1"))]])])])],
           Value.dict [("name", Value.scalar (Scalar.str "eth2"))]])])]
        "/interfaces/interface/config" = some t →
      pyFalsy t = true ∨ extract_identifiers_from_object t = []) ∧
    (∀ s : String,
      s ∈ resolve_dependency_target_identifiers_from_current_config
        { source_path := "openconfig-acl:acl/acl-sets/acl-set[ACL1]/config/name",
          target_path := "/interfaces/interface/config",
          dependency_type := "schema_leafref",
          source_value := some "ACL1" }
        [("openconfig-interfaces:interfaces", Value.dict [("interface", Value.list
          [Value.dict [("name", Value.scalar (Scalar.str "eth1")),
            ("openconfig-acl:acl", Value.dict [("ingress-acl-sets", Value.dict
              [("ingress-acl-set", Value.list [Value.dict
                [("set-name", Value.scalar (Scalar.str "ACL1"))]])])])],
           Value.dict [("name", Value.scalar (Scalar.str "eth2"))]])])] ↔
        ∃ iface ∈ [Value.dict [("name", Value.scalar (Scalar.str "eth1")),
            ("openconfig-acl:acl", Value.dict [("ingress-acl-sets", Value.dict
              [("ingress-acl-set", Value.list [Value.dict
                [("set-name", Value.scalar (Scalar.str "ACL1"))]])])])],
           Value.dict [("name", Value.scalar (Scalar.str "eth2"))]],
          NamedReferencingInterface "ACL1" iface s) := by
  refine ⟨by decide, fun t ht => Option.noConfusion ht, ?_⟩
  exact (c9_acl_interface_fallback
    { source_path := "openconfig-acl:acl/acl-sets/acl-set[ACL1]/config/name",
      target_path := "/interfaces/interface/config",
      dependency_type := "schema_leafref",
      source_value := some "ACL1" }
    _ (by decide) (fun t ht => Option.noConfusion ht)).2.2
    "ACL1" rfl (by decide) (by decide) _ _ rfl rfl
